import Mathlib

set_option maxRecDepth 100000

/-!
Verification of the crit-bit tree engine in `blt.c`.

Keys are C strings, modelled as lists of byte values; a valid key contains
no interior NUL, so every stored byte is in `[1, 255]`.  Reading a byte at
or past the end of the key yields the implicit terminator `0`, which is how
the C code compares keys through their terminating NUL byte.

The tree (`struct BLT` in the source) is empty or holds one root node; a
node is either a leaf (`BLT_IT`: key plus opaque payload, the payload being
a `void *` modelled as a natural number with `0` for `NULL`) or an internal
node carrying a critical position as a byte index and a bit mask together
with two children `kid[0]`/`kid[1]` (the source distinguishes the two node
kinds by a tagged pointer; the sum type plays that role here).

Every operation of `blt.c` is translated below as a pure function on this
model, mirroring the source's control flow: the descent conditions, the
argument order of each `decide` call, and the early-return guards are kept
exactly as written in C.
-/

namespace Blt

/-- A stored entry (`struct BLT_IT`): key and opaque payload. -/
structure BLT_IT where
  key : List Nat
  data : Nat
deriving DecidableEq

/-- A node (`struct blt_node_s`): either a leaf or an internal node with a
critical (byte, mask) position and two children. -/
inductive blt_node where
  | leaf (it : BLT_IT)
  | node (byte mask : Nat) (l r : blt_node)
deriving DecidableEq

/-- `key[i]` read as the C code does: bytes past the end of the list are the
implicit NUL terminator `0`. -/
def keyByte (k : List Nat) (i : Nat) : Nat := k.getD i 0

/-- A C-string key: every stored byte is nonzero and fits in one byte. -/
def ValidKey (k : List Nat) : Prop := ∀ b ∈ k, 0 < b ∧ b < 256

instance (k : List Nat) : Decidable (ValidKey k) := by
  unfold ValidKey; infer_instance

/-- `to_mask` from `blt.c`: the byte with every bit set except the leading
bit of `x` (for `0 < x < 256`).  The SWAR steps and the final
`(x & ~(x >> 1)) ^ 255` are the source's, on 8-bit values. -/
def to_mask (x : Nat) : Nat :=
  let x1 := x ||| (x >>> 1)
  let x2 := x1 ||| (x1 >>> 2)
  let x3 := x2 ||| (x2 >>> 4)
  (x3 &&& ((x3 >>> 1) ^^^ 255)) ^^^ 255

/-- `decide` from `blt.c`: `(1 + (m | c)) >> 8`, the branch direction for
byte `c` at a node with mask `m`. -/
protected def decide (c m : Nat) : Nat := (1 + (m ||| c)) >>> 8

/-- The key-comparison loop shared by `blt_put_with` and `blt_ceilfloor`:
scan two keys (terminator included) for the first differing byte; `none`
means the keys are equal, `some (i, x)` gives the byte index `i` of the
first difference and the XOR `x` of the differing bytes.  Faithful to the C
loop for NUL-free keys. -/
def critDiff : List Nat → List Nat → Option (Nat × Nat)
  | [], [] => none
  | [], b :: _ => some (0, b)
  | a :: _, [] => some (0, a)
  | a :: as, b :: bs =>
    if a = b then (critDiff as bs).map (fun r => (r.1 + 1, r.2))
    else some (0, a ^^^ b)

/-- `confident_get` from `blt.c`: walk down as if the key were present,
choosing `kid[p->byte < keylen && decide(key[p->byte], p->mask)]`. -/
def confident_get : blt_node → List Nat → BLT_IT
  | .leaf it, _ => it
  | .node b m l r, key =>
    if b < key.length ∧ Blt.decide (keyByte key b) m ≠ 0
    then confident_get r key
    else confident_get l key

/-- The freshly allocated sibling pair of `blt_put_with`: the new leaf goes
on side `ndir`, the displaced subtree on the other side. -/
def mkPair (byte mask ndir : Nat) (newIt : BLT_IT) (old : blt_node) : blt_node :=
  if ndir = 0 then .node byte mask (.leaf newIt) old
  else .node byte mask old (.leaf newIt)

/-- The second descent of `blt_put_with`: walk down following
`decide(key[p->byte], p->mask)` until reaching a leaf or a node whose
`(byte << 8) + mask` code exceeds the new crit position, and splice the new
sibling pair in at that point. -/
def splice (t : blt_node) (key : List Nat) (byte mask ndir : Nat)
    (newIt : BLT_IT) : blt_node :=
  match t with
  | .leaf it => mkPair byte mask ndir newIt (.leaf it)
  | .node b m l r =>
    if (byte <<< 8) + mask < (b <<< 8) + m then
      mkPair byte mask ndir newIt (.node b m l r)
    else if Blt.decide (keyByte key b) m ≠ 0 then
      .node b m l (splice r key byte mask ndir newIt)
    else
      .node b m (splice l key byte mask ndir newIt) r

/-- In-place update of the leaf reached by `confident_get` (the
`already_present_cb` path of `blt_put_with` mutates that leaf). -/
def modify_at (t : blt_node) (key : List Nat) (f : BLT_IT → BLT_IT) : blt_node :=
  match t with
  | .leaf it => .leaf (f it)
  | .node b m l r =>
    if b < key.length ∧ Blt.decide (keyByte key b) m ≠ 0
    then .node b m l (modify_at r key f)
    else .node b m (modify_at l key f) r

/-- `blt_put_with` from `blt.c`.  The callback receives the already-present
leaf and yields the updated leaf together with the `void *` return value;
the function returns the new tree and its own return value (`0` on a fresh
insertion). -/
def blt_put_with (t : Option blt_node) (key : List Nat) (data : Nat)
    (cb : BLT_IT → BLT_IT × Nat) : Option blt_node × Nat :=
  match t with
  | none => (some (.leaf ⟨key, data⟩), 0)
  | some root =>
    let p := confident_get root key
    match critDiff key p.key with
    | some (byte, x0) =>
      let x := to_mask x0
      let ndir := Blt.decide (keyByte key byte) x
      (some (splice root key byte x ndir ⟨key, data⟩), 0)
    | none => (some (modify_at root key (fun it => (cb it).1)), (cb p).2)

/-- `blt_put` from `blt.c`: overwrite the payload on an existing key and
return the original payload, `0` (NULL) on a fresh insertion. -/
def blt_put (t : Option blt_node) (key : List Nat) (data : Nat) :
    Option blt_node × Nat :=
  blt_put_with t key data (fun it => (⟨it.key, data⟩, it.data))

/-- `blt_put_if_absent` from `blt.c`: the already-present callback returns
`(void *) 1`, and the function returns `blt_put_with(...) != 0`. -/
def blt_put_if_absent (t : Option blt_node) (key : List Nat) (data : Nat) :
    Option blt_node × Bool :=
  let r := blt_put_with t key data (fun it => (it, 1))
  (r.1, r.2 != 0)

/-- The descent of `blt_delete`: `none` when the key is absent (early return
on `p->byte > keylen` or final `strcmp` mismatch); `some t'` is the subtree
after removing the key's leaf and letting its sibling rise (`*q0 = q[1 - dir]`
in the source), `some none` when the subtree was that single leaf. -/
def delete_go (t : blt_node) (key : List Nat) : Option (Option blt_node) :=
  match t with
  | .leaf it => if key = it.key then some none else none
  | .node b m l r =>
    if b > key.length then none
    else if Blt.decide m (keyByte key b) ≠ 0 then
      match delete_go r key with
      | none => none
      | some none => some (some l)
      | some (some r2) => some (some (.node b m l r2))
    else
      match delete_go l key with
      | none => none
      | some none => some (some r)
      | some (some l2) => some (some (.node b m l2 r))

/-- `blt_delete` from `blt.c`: returns the new tree and whether a key was
removed. -/
def blt_delete (t : Option blt_node) (key : List Nat) : Option blt_node × Bool :=
  match t with
  | none => (none, false)
  | some root =>
    match delete_go root key with
    | none => (some root, false)
    | some t2 => (t2, true)

/-- The descent of `blt_get`, with the `p->byte > keylen` early return and
the final `strcmp` check. -/
def blt_get_go : blt_node → List Nat → Option BLT_IT
  | .leaf it, key => if key = it.key then some it else none
  | .node b m l r, key =>
    if b > key.length then none
    else if Blt.decide (keyByte key b) m ≠ 0 then blt_get_go r key
    else blt_get_go l key

/-- `blt_get` from `blt.c`. -/
def blt_get (t : Option blt_node) (key : List Nat) : Option BLT_IT :=
  match t with
  | none => none
  | some root => blt_get_go root key

/-- `blt_firstlast`'s loop: follow `kid[dir]` down to a leaf. -/
def firstlast (t : blt_node) (dir : Nat) : BLT_IT :=
  match t with
  | .leaf it => it
  | .node _ _ l r => if dir = 0 then firstlast l dir else firstlast r dir

/-- `blt_firstlast` from `blt.c` (accepts a null subtree). -/
def blt_firstlast (t : Option blt_node) (dir : Nat) : Option BLT_IT :=
  t.map (firstlast · dir)

/-- `blt_first` from `blt.c`. -/
def blt_first (t : Option blt_node) : Option BLT_IT := blt_firstlast t 0

/-- `blt_last` from `blt.c`. -/
def blt_last (t : Option blt_node) : Option BLT_IT := blt_firstlast t 1

/-- The descent of `blt_nextprev`: re-walk the key's path, remembering the
sibling subtree each time the branch taken equals `way` (`other = q + 1 - way`
in the source; the C directions are always 0 or 1, and a nonzero `decide`
result means direction 1). -/
def nextprev_go (t : blt_node) (key : List Nat) (way : Nat)
    (other : Option blt_node) : Option blt_node :=
  match t with
  | .leaf _ => other
  | .node b m l r =>
    if Blt.decide m (keyByte key b) = 0
    then nextprev_go l key way (if way = 0 then some r else other)
    else nextprev_go r key way (if way = 1 then some l else other)

/-- `blt_nextprev` from `blt.c` (the argument must be the key of a stored
leaf; the model takes the key itself). -/
def blt_nextprev (t : Option blt_node) (key : List Nat) (way : Nat) :
    Option BLT_IT :=
  match t with
  | none => none
  | some root => blt_firstlast (nextprev_go root key way none) way

/-- `blt_next` from `blt.c`. -/
def blt_next (t : Option blt_node) (it : BLT_IT) : Option BLT_IT :=
  blt_nextprev t it.key 0

/-- `blt_prev` from `blt.c`. -/
def blt_prev (t : Option blt_node) (it : BLT_IT) : Option BLT_IT :=
  blt_nextprev t it.key 1

/-- The re-descent of `blt_ceilfloor`: walk down while the node's crit code
`(p->byte << 8) + p->mask` is not above the divergence code, remembering
sibling subtrees as in `blt_nextprev`; on stopping, the current subtree
itself becomes the candidate when `ndir == way`. -/
def ceilfloor_walk (t : blt_node) (key : List Nat) (way byte mask ndir : Nat)
    (other : Option blt_node) : Option blt_node :=
  match t with
  | .leaf it => if ndir = way then some (.leaf it) else other
  | .node b m l r =>
    if (byte <<< 8) + mask < (b <<< 8) + m then
      (if ndir = way then some (.node b m l r) else other)
    else if Blt.decide m (keyByte key b) = 0 then
      ceilfloor_walk l key way byte mask ndir (if way = 0 then some r else other)
    else
      ceilfloor_walk r key way byte mask ndir (if way = 1 then some l else other)

/-- `blt_ceilfloor` from `blt.c`. -/
def blt_ceilfloor (t : Option blt_node) (key : List Nat) (way : Nat) :
    Option BLT_IT :=
  match t with
  | none => none
  | some root =>
    let p := confident_get root key
    match critDiff key p.key with
    | none => some p
    | some (byte, x0) =>
      let x := to_mask x0
      let ndir := Blt.decide x (keyByte key byte)
      blt_firstlast (ceilfloor_walk root key way byte x ndir none) way

/-- `blt_ceil` from `blt.c`. -/
def blt_ceil (t : Option blt_node) (key : List Nat) : Option BLT_IT :=
  blt_ceilfloor t key 0

/-- `blt_floor` from `blt.c`. -/
def blt_floor (t : Option blt_node) (key : List Nat) : Option BLT_IT :=
  blt_ceilfloor t key 1

/-- The leaves of a subtree in `kid[0]`-then-`kid[1]` order (the order in
which every traversal of the source visits them). -/
def leaves : blt_node → List BLT_IT
  | .leaf it => [it]
  | .node _ _ l r => leaves l ++ leaves r

/-- The stored keys of a subtree, in traversal order. -/
def keys (t : blt_node) : List (List Nat) := (leaves t).map BLT_IT.key

/-- Leaves of an optional tree. -/
def leavesO (t : Option blt_node) : List BLT_IT :=
  match t with
  | none => []
  | some root => leaves root

/-- Keys of an optional tree. -/
def keysO (t : Option blt_node) : List (List Nat) :=
  match t with
  | none => []
  | some root => keys root

/-- The first descent of `blt_allprefixed`: skip (leftwards, without moving
`top`) every node whose critical byte is at or past the end of the sought
first argument, and otherwise branch by `decide(p->mask, key[p->byte])`,
moving `top` to the chosen child. -/
def allpref_descend (t : blt_node) (key : List Nat) (top : blt_node) :
    BLT_IT × blt_node :=
  match t with
  | .leaf it => (it, top)
  | .node b m l r =>
    if b ≥ key.length then allpref_descend l key top
    else if Blt.decide m (keyByte key b) ≠ 0 then allpref_descend r key r
    else allpref_descend l key l

/-- The recursive `traverse` of `blt_allprefixed`: visit leaves in order,
stopping as soon as the callback returns anything other than `1`. -/
def traverse (f : BLT_IT → Int) : blt_node → Int
  | .leaf it => f it
  | .node _ _ l r =>
    let s := traverse f l
    if s = 1 then traverse f r else s

/-- `blt_allprefixed` from `blt.c`; the `strncmp(key, leafkey, keylen)`
prefix test is `List.isPrefixOf` for NUL-free keys. -/
def blt_allprefixed (t : Option blt_node) (key : List Nat)
    (f : BLT_IT → Int) : Int :=
  match t with
  | none => 1
  | some root =>
    let d := allpref_descend root key root
    if key.isPrefixOf d.1.key then traverse f d.2 else 1

/-- The list of leaves `blt_allprefixed` hands to its callback, in order. -/
def allprefixedList (t : Option blt_node) (key : List Nat) : List BLT_IT :=
  match t with
  | none => []
  | some root =>
    let d := allpref_descend root key root
    if key.isPrefixOf d.1.key then leaves d.2 else []

/-- Folding a callback over a leaf list the way `traverse` does: stop on the
first status other than `1`. -/
def foldStatus (f : BLT_IT → Int) : List BLT_IT → Int
  | [] => 1
  | it :: rest => let s := f it; if s = 1 then foldStatus f rest else s

/-- Modelled from the spec: `blt_size` is declared in `blt.h` and used by the
repository's test driver, but its implementation is not among the given
sources.  The spec says the tree "tracks a count of stored entries" and that
`size()` returns that count, so it is modelled as the number of stored
entries. -/
def blt_size (t : Option blt_node) : Nat := (leavesO t).length

/-- Repeated `blt_next` steps starting after the leaf with key `key`. -/
def walkFrom (root : blt_node) (key : List Nat) : Nat → List BLT_IT
  | 0 => []
  | fuel + 1 =>
    match blt_nextprev (some root) key 0 with
    | none => []
    | some it => it :: walkFrom root it.key fuel

/-- The full `blt_first`-then-`blt_next` walk (with enough fuel to visit
every leaf). -/
def walkList (t : Option blt_node) : List BLT_IT :=
  match t with
  | none => []
  | some root =>
    firstlast root 0 :: walkFrom root (firstlast root 0).key (leaves root).length

/-- The bit of byte `c` at position `p`, as the 0/1 value used for branch
directions. -/
def bitOf (c p : Nat) : Nat := (c >>> p) % 2

/-- The index of the leading (most significant) set bit of a byte. -/
def critPos (x : Nat) : Nat :=
  if 128 ≤ x then 7 else if 64 ≤ x then 6 else if 32 ≤ x then 5
  else if 16 ≤ x then 4 else if 8 ≤ x then 3 else if 4 ≤ x then 2
  else if 2 ≤ x then 1 else 0

/-- Agreement of two keys at every bit position strictly before bit `p` of
byte `b`: earlier bytes agree entirely, and within byte `b` the bits above
`p` agree. -/
def agreeB (b p : Nat) (u v : List Nat) : Prop :=
  (∀ i, i < b → keyByte u i = keyByte v i) ∧
  keyByte u b >>> (p + 1) = keyByte v b >>> (p + 1)

/-- Byte-wise order on terminator-extended keys: at some byte position `u`'s
byte is smaller, all earlier bytes agreeing. -/
def extLt (u v : List Nat) : Prop :=
  ∃ b, (∀ i, i < b → keyByte u i = keyByte v i) ∧ keyByte u b < keyByte v b

/-- Well-formed subtree: every internal node's mask isolates one bit
(`255 - 2 ^ p`), the keys below `kid[0]`/`kid[1]` have bit `p` of byte
`byte` clear/set respectively, and all keys in the subtree agree on every
bit position strictly before the node's critical position. -/
inductive WF : blt_node → Prop
  | leaf : ∀ it, ValidKey it.key → WF (.leaf it)
  | node : ∀ b p l r, p < 8 → WF l → WF r →
      (∀ k, k ∈ keys l → bitOf (keyByte k b) p = 0) →
      (∀ k, k ∈ keys r → bitOf (keyByte k b) p = 1) →
      (∀ u v, u ∈ keys l ++ keys r → v ∈ keys l ++ keys r → agreeB b p u v) →
      WF (.node b (255 - 2 ^ p) l r)

/-- Well-formed tree. -/
def WFo : Option blt_node → Prop
  | none => True
  | some root => WF root

/-- Trees reachable from the empty tree by `blt_put` and `blt_delete` with
valid (NUL-free) keys. -/
inductive Reachable : Option blt_node → Prop
  | empty : Reachable none
  | put : ∀ t k d, Reachable t → ValidKey k → Reachable (blt_put t k d).1
  | del : ∀ t k, Reachable t → ValidKey k → Reachable (blt_delete t k).1

/-- The subtree's root crit code `(byte << 8) + mask` is above `c`
(trivially true at a leaf). -/
def nodeCodeGt (c : Nat) : blt_node → Prop
  | .leaf _ => True
  | .node b m _ _ => c < (b <<< 8) + m

/-- Crit codes `(byte << 8) + mask` strictly increase along every
root-to-leaf path. -/
def pathInc : blt_node → Prop
  | .leaf _ => True
  | .node b m l r =>
    nodeCodeGt ((b <<< 8) + m) l ∧ nodeCodeGt ((b <<< 8) + m) r ∧
    pathInc l ∧ pathInc r

/-- `pathInc` for a possibly empty tree. -/
def pathIncO : Option blt_node → Prop
  | none => True
  | some root => pathInc root

/-- Executable byte-wise lexicographic strict order on keys (a proper
initial segment sorts first, as with C strings). -/
def lexLtB : List Nat → List Nat → Bool
  | [], [] => false
  | [], _ :: _ => true
  | _ :: _, [] => false
  | a :: as, b :: bs =>
    if a < b then true else if b < a then false else lexLtB as bs

/-- Byte-wise lexicographic `≤` on keys. -/
def keyLe (a b : List Nat) : Prop := a = b ∨ List.Lex (· < ·) a b

end Blt

namespace Blt

theorem bitOf_cases (c p : Nat) : bitOf c p = 0 ∨ bitOf c p = 1 :=
  Nat.mod_two_eq_zero_or_one _

theorem decide_comm (a b : Nat) : Blt.decide a b = Blt.decide b a := by
  unfold Blt.decide; rw [Nat.lor_comm]

theorem decide_mask_all :
    ∀ c, c < 256 → ∀ p, p < 8 → Blt.decide c (255 - 2 ^ p) = bitOf c p := by
  decide

theorem decide_mask {c p : Nat} (hc : c < 256) (hp : p < 8) :
    Blt.decide c (255 - 2 ^ p) = bitOf c p :=
  decide_mask_all c hc p hp

theorem decide_mask' {c p : Nat} (hc : c < 256) (hp : p < 8) :
    Blt.decide (255 - 2 ^ p) c = bitOf c p := by
  rw [decide_comm]; exact decide_mask hc hp

theorem to_mask_spec :
    ∀ x, x < 256 → 0 < x →
      critPos x < 8 ∧ to_mask x = 255 - 2 ^ critPos x ∧
      bitOf x (critPos x) = 1 ∧ x >>> (critPos x + 1) = 0 := by
  decide

theorem keyByte_nil (i : Nat) : keyByte [] i = 0 := by simp [keyByte]

theorem keyByte_cons_zero (a : Nat) (l : List Nat) : keyByte (a :: l) 0 = a := by
  simp [keyByte]

theorem keyByte_cons_succ (a : Nat) (l : List Nat) (i : Nat) :
    keyByte (a :: l) (i + 1) = keyByte l i := by
  simp [keyByte]

theorem validKey_nil : ValidKey [] := by intro b hb; cases hb

theorem validKey_cons {a : Nat} {l : List Nat} :
    ValidKey (a :: l) ↔ (0 < a ∧ a < 256) ∧ ValidKey l := by
  constructor
  · intro h; exact ⟨h a (by simp), fun b hb => h b (by simp [hb])⟩
  · rintro ⟨ha, hl⟩ b hb
    rcases List.mem_cons.mp hb with rfl | hb
    exacts [ha, hl b hb]

theorem keyByte_lt {k : List Nat} (h : ValidKey k) (i : Nat) : keyByte k i < 256 := by
  induction k generalizing i with
  | nil => simp [keyByte_nil]
  | cons a l ih =>
    rcases validKey_cons.mp h with ⟨ha, hl⟩
    cases i with
    | zero => rw [keyByte_cons_zero]; exact ha.2
    | succ j => rw [keyByte_cons_succ]; exact ih hl j

theorem keyByte_eq_zero_iff {k : List Nat} (h : ValidKey k) (i : Nat) :
    keyByte k i = 0 ↔ k.length ≤ i := by
  induction k generalizing i with
  | nil => simp [keyByte_nil]
  | cons a l ih =>
    rcases validKey_cons.mp h with ⟨ha, hl⟩
    cases i with
    | zero =>
      rw [keyByte_cons_zero]
      simp only [List.length_cons]
      have := ha.1
      omega
    | succ j =>
      rw [keyByte_cons_succ, ih hl j]
      simp only [List.length_cons]
      omega

theorem critDiff_eq_none_iff (a b : List Nat) : critDiff a b = none ↔ a = b := by
  induction a generalizing b with
  | nil => cases b <;> simp [critDiff]
  | cons x xs ih =>
    cases b with
    | nil => simp [critDiff]
    | cons y ys =>
      by_cases h : x = y
      · subst h
        simp [critDiff, Option.map_eq_none', ih]
      · simp [critDiff, h]

theorem critDiff_spec {a b : List Nat} {i x : Nat}
    (ha : ValidKey a) (hb : ValidKey b) (h : critDiff a b = some (i, x)) :
    (∀ j, j < i → keyByte a j = keyByte b j) ∧
    keyByte a i ^^^ keyByte b i = x ∧ 0 < x ∧ x < 256 := by
  induction a generalizing b i with
  | nil =>
    cases b with
    | nil => simp [critDiff] at h
    | cons y ys =>
      simp only [critDiff, Option.some_inj, Prod.mk.injEq] at h
      obtain ⟨rfl, rfl⟩ := h
      rcases validKey_cons.mp hb with ⟨hy, _⟩
      refine ⟨fun j hj => by omega, ?_, hy.1, hy.2⟩
      rw [keyByte_nil, keyByte_cons_zero, Nat.zero_xor]
  | cons c cs ih =>
    cases b with
    | nil =>
      simp only [critDiff, Option.some_inj, Prod.mk.injEq] at h
      obtain ⟨rfl, rfl⟩ := h
      rcases validKey_cons.mp ha with ⟨hc, _⟩
      refine ⟨fun j hj => by omega, ?_, hc.1, hc.2⟩
      rw [keyByte_nil, keyByte_cons_zero, Nat.xor_zero]
    | cons y ys =>
      rcases validKey_cons.mp ha with ⟨hc, hcs⟩
      rcases validKey_cons.mp hb with ⟨hy, hys⟩
      by_cases hxy : c = y
      · subst hxy
        rcases hrec : critDiff cs ys with _ | ⟨i', x'⟩
        · simp [critDiff, hrec] at h
        rw [show critDiff (c :: cs) (c :: ys)
            = (critDiff cs ys).map (fun r => (r.1 + 1, r.2)) from by
          simp [critDiff]] at h
        rw [hrec] at h
        simp only [Option.map_some', Option.some_inj, Prod.mk.injEq] at h
        obtain ⟨hi, hx⟩ := h
        subst hi; subst hx
        obtain ⟨h1, h2, h3, h4⟩ := ih hcs hys hrec
        refine ⟨?_, ?_, h3, h4⟩
        · intro j hj
          cases j with
          | zero => rw [keyByte_cons_zero, keyByte_cons_zero]
          | succ j' =>
            rw [keyByte_cons_succ, keyByte_cons_succ]
            exact h1 j' (by omega)
        · rw [keyByte_cons_succ, keyByte_cons_succ]; exact h2
      · simp only [critDiff, if_neg hxy, Option.some_inj, Prod.mk.injEq] at h
        obtain ⟨rfl, rfl⟩ := h
        refine ⟨fun j hj => by omega, ?_, ?_, ?_⟩
        · rw [keyByte_cons_zero, keyByte_cons_zero]
        · rcases Nat.eq_zero_or_pos (c ^^^ y) with h0 | h0
          · exact absurd (Nat.xor_eq_zero.mp h0) hxy
          · exact h0
        · have h28 : (2 : Nat) ^ 8 = 256 := by norm_num
          have hx : c ^^^ y < 2 ^ 8 :=
            Nat.xor_lt_two_pow (by omega) (by omega)
          omega

theorem shiftRight_decomp (a p : Nat) :
    a >>> p = 2 * (a >>> (p + 1)) + bitOf a p := by
  rw [Nat.shiftRight_succ]
  unfold bitOf
  omega

theorem byte_lt_of_bits {a c p : Nat} (hagree : a >>> (p + 1) = c >>> (p + 1))
    (h0 : bitOf a p = 0) (h1 : bitOf c p = 1) : a < c := by
  have da := shiftRight_decomp a p
  have dc := shiftRight_decomp c p
  have hlt : a >>> p < c >>> p := by omega
  rw [Nat.shiftRight_eq_div_pow, Nat.shiftRight_eq_div_pow] at hlt
  by_contra hle
  push_neg at hle
  have h2 : c / 2 ^ p ≤ a / 2 ^ p := Nat.div_le_div_right hle
  exact absurd hlt (Nat.not_lt.mpr h2)

theorem shift_eq_of_parts {a c p : Nat} (h1 : a >>> (p + 1) = c >>> (p + 1))
    (h2 : bitOf a p = bitOf c p) : a >>> p = c >>> p := by
  have da := shiftRight_decomp a p
  have dc := shiftRight_decomp c p
  omega

theorem xor_shiftRight (a c n : Nat) :
    (a ^^^ c) >>> n = (a >>> n) ^^^ (c >>> n) := by
  apply Nat.eq_of_testBit_eq
  intro i
  simp [Nat.testBit_shiftRight, Nat.testBit_xor]

theorem bitOf_eq_one_iff (c p : Nat) : bitOf c p = 1 ↔ c.testBit p = true := by
  rw [Nat.testBit_to_div_mod]
  unfold bitOf
  rw [Nat.shiftRight_eq_div_pow]
  simp

theorem bitOf_eq_zero_iff (c p : Nat) : bitOf c p = 0 ↔ c.testBit p = false := by
  have h1 := bitOf_eq_one_iff c p
  have h01 := bitOf_cases c p
  cases hb : c.testBit p <;> simp [hb] at h1 ⊢ <;> omega

theorem bitOf_xor (a c p : Nat) :
    bitOf (a ^^^ c) p = 1 ↔ bitOf a p ≠ bitOf c p := by
  have hx := bitOf_eq_one_iff (a ^^^ c) p
  rw [Nat.testBit_xor] at hx
  rcases bitOf_cases a p with h0 | h0 <;> rcases bitOf_cases c p with h1 | h1
  · rw [(bitOf_eq_zero_iff a p).mp h0, (bitOf_eq_zero_iff c p).mp h1] at hx
    simp only [Bool.xor_false] at hx
    rw [h0, h1]
    simp [hx]
  · rw [(bitOf_eq_zero_iff a p).mp h0, (bitOf_eq_one_iff c p).mp h1] at hx
    rw [h0, h1]
    simp [hx]
  · rw [(bitOf_eq_one_iff a p).mp h0, (bitOf_eq_zero_iff c p).mp h1] at hx
    rw [h0, h1]
    simp [hx]
  · rw [(bitOf_eq_one_iff a p).mp h0, (bitOf_eq_one_iff c p).mp h1] at hx
    rw [h0, h1]
    simp [hx]

end Blt

namespace Blt

theorem agreeB_refl (b p : Nat) (u : List Nat) : agreeB b p u u :=
  ⟨fun _ _ => rfl, rfl⟩

theorem agreeB_symm {b p : Nat} {u v : List Nat} (h : agreeB b p u v) :
    agreeB b p v u :=
  ⟨fun i hi => (h.1 i hi).symm, h.2.symm⟩

theorem agreeB_trans {b p : Nat} {u v w : List Nat} (h1 : agreeB b p u v)
    (h2 : agreeB b p v w) : agreeB b p u w :=
  ⟨fun i hi => (h1.1 i hi).trans (h2.1 i hi), h1.2.trans h2.2⟩

theorem agreeB_mono {b1 p1 b2 p2 : Nat} {u v : List Nat}
    (hpos : b1 < b2 ∨ (b1 = b2 ∧ p2 ≤ p1)) (h : agreeB b2 p2 u v) :
    agreeB b1 p1 u v := by
  rcases hpos with hb | ⟨rfl, hp⟩
  · refine ⟨fun i hi => h.1 i (by omega), ?_⟩
    rw [h.1 b1 hb]
  · refine ⟨h.1, ?_⟩
    have hd : p1 + 1 = (p2 + 1) + (p1 - p2) := by omega
    rw [hd, Nat.shiftRight_add (keyByte u b1) (p2 + 1) (p1 - p2),
      Nat.shiftRight_add (keyByte v b1) (p2 + 1) (p1 - p2), h.2]

theorem agreeB_strict {b1 p1 b2 p2 : Nat} {u v : List Nat}
    (hpos : b1 < b2 ∨ (b1 = b2 ∧ p2 < p1)) (h : agreeB b2 p2 u v) :
    agreeB b1 p1 u v ∧ bitOf (keyByte u b1) p1 = bitOf (keyByte v b1) p1 := by
  rcases hpos with hb | ⟨rfl, hp⟩
  · exact ⟨agreeB_mono (Or.inl hb) h, by rw [h.1 b1 hb]⟩
  · refine ⟨agreeB_mono (Or.inr ⟨rfl, by omega⟩) h, ?_⟩
    have hd : p1 = (p2 + 1) + (p1 - p2 - 1) := by omega
    unfold bitOf
    rw [hd, Nat.shiftRight_add (keyByte u b1) (p2 + 1) (p1 - p2 - 1),
      Nat.shiftRight_add (keyByte v b1) (p2 + 1) (p1 - p2 - 1), h.2]

theorem code_lt_iff {b1 p1 b2 p2 : Nat} (h1 : p1 < 8) (h2 : p2 < 8) :
    (b1 <<< 8) + (255 - 2 ^ p1) < (b2 <<< 8) + (255 - 2 ^ p2) ↔
      b1 < b2 ∨ (b1 = b2 ∧ p2 < p1) := by
  rw [Nat.shiftLeft_eq, Nat.shiftLeft_eq]
  norm_num
  have e1 : 2 ^ p1 ≤ 2 ^ 7 := Nat.pow_le_pow_right (by omega) (by omega)
  have e2 : 2 ^ p2 ≤ 2 ^ 7 := Nat.pow_le_pow_right (by omega) (by omega)
  have e3 : 1 ≤ 2 ^ p1 := Nat.one_le_two_pow
  have e4 : 1 ≤ 2 ^ p2 := Nat.one_le_two_pow
  have e5 : 2 ^ p2 < 2 ^ p1 ↔ p2 < p1 := Nat.pow_lt_pow_iff_right (by omega)
  have e6 : 2 ^ p1 < 2 ^ p2 ↔ p1 < p2 := Nat.pow_lt_pow_iff_right (by omega)
  have e7 : (2 : Nat) ^ 7 = 128 := by norm_num
  omega

theorem code_eq_iff {b1 p1 b2 p2 : Nat} (h1 : p1 < 8) (h2 : p2 < 8) :
    (b1 <<< 8) + (255 - 2 ^ p1) = (b2 <<< 8) + (255 - 2 ^ p2) ↔
      b1 = b2 ∧ p1 = p2 := by
  rw [Nat.shiftLeft_eq, Nat.shiftLeft_eq]
  norm_num
  have e1 : 2 ^ p1 ≤ 2 ^ 7 := Nat.pow_le_pow_right (by omega) (by omega)
  have e2 : 2 ^ p2 ≤ 2 ^ 7 := Nat.pow_le_pow_right (by omega) (by omega)
  have e3 : 1 ≤ 2 ^ p1 := Nat.one_le_two_pow
  have e4 : 1 ≤ 2 ^ p2 := Nat.one_le_two_pow
  have e5 : 2 ^ p2 < 2 ^ p1 ↔ p2 < p1 := Nat.pow_lt_pow_iff_right (by omega)
  have e6 : 2 ^ p1 < 2 ^ p2 ↔ p1 < p2 := Nat.pow_lt_pow_iff_right (by omega)
  have e7 : (2 : Nat) ^ 7 = 128 := by norm_num
  omega

theorem extLt_of_agree {b p : Nat} {u v : List Nat} (h : agreeB b p u v)
    (h0 : bitOf (keyByte u b) p = 0) (h1 : bitOf (keyByte v b) p = 1) :
    extLt u v :=
  ⟨b, h.1, byte_lt_of_bits h.2 h0 h1⟩

theorem extLt_asymm {u v : List Nat} (h1 : extLt u v) (h2 : extLt v u) :
    False := by
  obtain ⟨b1, ha1, hl1⟩ := h1
  obtain ⟨b2, ha2, hl2⟩ := h2
  rcases Nat.lt_trichotomy b1 b2 with h | h | h
  · rw [ha2 b1 h] at hl1
    exact Nat.lt_irrefl _ hl1
  · subst h; omega
  · rw [ha1 b2 h] at hl2
    exact Nat.lt_irrefl _ hl2

theorem extLt_irrefl {u : List Nat} (h : extLt u u) : False :=
  extLt_asymm h h

theorem extLt_trichotomy {u v : List Nat} (hu : ValidKey u) (hv : ValidKey v) :
    u = v ∨ extLt u v ∨ extLt v u := by
  rcases h : critDiff u v with _ | ⟨i, x⟩
  · exact Or.inl ((critDiff_eq_none_iff u v).mp h)
  · obtain ⟨hbelow, hxor, hpos, hlt⟩ := critDiff_spec hu hv h
    have hne : keyByte u i ≠ keyByte v i := by
      intro he
      rw [he, Nat.xor_self] at hxor
      omega
    rcases Nat.lt_or_ge (keyByte u i) (keyByte v i) with hlt2 | hge
    · exact Or.inr (Or.inl ⟨i, hbelow, hlt2⟩)
    · refine Or.inr (Or.inr ⟨i, fun j hj => (hbelow j hj).symm, by omega⟩)

theorem extLt_iff_lex {u v : List Nat} (hu : ValidKey u) (hv : ValidKey v) :
    extLt u v ↔ List.Lex (· < ·) u v := by
  induction u generalizing v with
  | nil =>
    cases v with
    | nil =>
      constructor
      · rintro ⟨b, _, hb⟩
        rw [keyByte_nil] at hb
        exact absurd hb (Nat.lt_irrefl 0)
      · intro h; cases h
    | cons y ys =>
      constructor
      · intro _; exact List.Lex.nil
      · intro _
        rcases validKey_cons.mp hv with ⟨hy, _⟩
        exact ⟨0, fun i hi => by omega,
          by rw [keyByte_nil, keyByte_cons_zero]; exact hy.1⟩
  | cons x xs ih =>
    cases v with
    | nil =>
      constructor
      · rintro ⟨b, hagree, hb⟩
        rcases validKey_cons.mp hu with ⟨hx, _⟩
        cases b with
        | zero =>
          rw [keyByte_cons_zero, keyByte_nil] at hb
          omega
        | succ b2 =>
          have h0 := hagree 0 (by omega)
          rw [keyByte_cons_zero, keyByte_nil] at h0
          have := hx.1
          omega
      · intro h; cases h
    | cons y ys =>
      rcases validKey_cons.mp hu with ⟨hx, hxs⟩
      rcases validKey_cons.mp hv with ⟨hy, hys⟩
      constructor
      · rintro ⟨b, hagree, hb⟩
        cases b with
        | zero =>
          rw [keyByte_cons_zero, keyByte_cons_zero] at hb
          exact List.Lex.rel hb
        | succ b2 =>
          have h0 := hagree 0 (by omega)
          rw [keyByte_cons_zero, keyByte_cons_zero] at h0
          subst h0
          apply List.Lex.cons
          apply (ih hxs hys).mp
          refine ⟨b2, fun i hi => ?_, ?_⟩
          · have hi2 := hagree (i + 1) (by omega)
            rw [keyByte_cons_succ, keyByte_cons_succ] at hi2
            exact hi2
          · rw [keyByte_cons_succ, keyByte_cons_succ] at hb
            exact hb
      · intro h
        cases h with
        | rel hlt =>
          exact ⟨0, fun i hi => by omega,
            by rw [keyByte_cons_zero, keyByte_cons_zero]; exact hlt⟩
        | cons htail =>
          obtain ⟨b, hagree, hb⟩ := (ih hxs hys).mpr htail
          refine ⟨b + 1, fun i hi => ?_, ?_⟩
          · cases i with
            | zero => rw [keyByte_cons_zero, keyByte_cons_zero]
            | succ i2 =>
              rw [keyByte_cons_succ, keyByte_cons_succ]
              exact hagree i2 (by omega)
          · rw [keyByte_cons_succ, keyByte_cons_succ]
            exact hb

theorem leaves_ne_nil (t : blt_node) : leaves t ≠ [] := by
  induction t with
  | leaf it => simp [leaves]
  | node b m l r ihl ihr =>
    simp only [leaves, ne_eq, List.append_eq_nil]
    rintro ⟨h1, _⟩
    exact ihl h1

theorem keys_leaf (it : BLT_IT) : keys (.leaf it) = [it.key] := rfl

theorem keys_node (b m : Nat) (l r : blt_node) :
    keys (.node b m l r) = keys l ++ keys r := by
  simp [keys, leaves]

theorem mem_keys_of_mem_leaves {t : blt_node} {it : BLT_IT}
    (h : it ∈ leaves t) : it.key ∈ keys t :=
  List.mem_map_of_mem _ h

theorem firstlast_mem (t : blt_node) (dir : Nat) :
    firstlast t dir ∈ leaves t := by
  induction t with
  | leaf it => simp [firstlast, leaves]
  | node b m l r ihl ihr =>
    rw [firstlast]
    by_cases hd : dir = 0
    · rw [if_pos hd]
      exact List.mem_append.mpr (Or.inl ihl)
    · rw [if_neg hd]
      exact List.mem_append.mpr (Or.inr ihr)

theorem firstlast_zero (t : blt_node) :
    (leaves t).head? = some (firstlast t 0) := by
  induction t with
  | leaf it => rfl
  | node b m l r ihl ihr =>
    show (leaves l ++ leaves r).head? = _
    rw [List.head?_append, ihl]
    simp [firstlast]

theorem wf_valid {t : blt_node} (h : WF t) :
    ∀ it ∈ leaves t, ValidKey it.key := by
  induction h with
  | leaf it hv =>
    intro it2 h2
    simp only [leaves, List.mem_singleton] at h2
    subst h2; exact hv
  | node b p l r hp hl hr h0 h1 hag ihl ihr =>
    intro it2 h2
    rcases List.mem_append.mp h2 with h2 | h2
    exacts [ihl it2 h2, ihr it2 h2]

theorem wf_valid_key {t : blt_node} (h : WF t) {k : List Nat}
    (hk : k ∈ keys t) : ValidKey k := by
  obtain ⟨it, hit, rfl⟩ := List.mem_map.mp hk
  exact wf_valid h it hit

theorem wf_pairwise {t : blt_node} (h : WF t) : List.Pairwise extLt (keys t) := by
  induction h with
  | leaf it hv => simp [keys, leaves]
  | node b p l r hp hl hr h0 h1 hag ihl ihr =>
    rw [keys_node, List.pairwise_append]
    refine ⟨ihl, ihr, ?_⟩
    intro u hu v hv
    have hagr := hag u v (List.mem_append.mpr (Or.inl hu))
      (List.mem_append.mpr (Or.inr hv))
    exact extLt_of_agree hagr (h0 u hu) (h1 v hv)

theorem wf_nodup {t : blt_node} (h : WF t) : (keys t).Nodup := by
  refine (wf_pairwise h).imp ?_
  intro a b hab he
  subst he
  exact extLt_irrefl hab

theorem wf_leaf_inj {t : blt_node} (h : WF t) {it1 it2 : BLT_IT}
    (h1 : it1 ∈ leaves t) (h2 : it2 ∈ leaves t) (he : it1.key = it2.key) :
    it1 = it2 :=
  List.inj_on_of_nodup_map (wf_nodup h) h1 h2 he

theorem exists_mem_keys (t : blt_node) : ∃ k, k ∈ keys t := by
  have h := leaves_ne_nil t
  rcases hl : leaves t with _ | ⟨it, rest⟩
  · exact absurd hl h
  · exact ⟨it.key, by rw [keys, hl]; simp⟩

theorem code_lt_of_split {b p b1 p1 d : Nat} {u v : List Nat}
    (hp : p < 8) (hp1 : p1 < 8) (hag : agreeB b p u v)
    (hbu : bitOf (keyByte u b) p = d) (hbv : bitOf (keyByte v b) p = d)
    (h0 : bitOf (keyByte u b1) p1 = 0) (h1 : bitOf (keyByte v b1) p1 = 1) :
    (b <<< 8) + (255 - 2 ^ p) < (b1 <<< 8) + (255 - 2 ^ p1) := by
  rcases Nat.lt_trichotomy ((b <<< 8) + (255 - 2 ^ p))
    ((b1 <<< 8) + (255 - 2 ^ p1)) with h | h | h
  · exact h
  · obtain ⟨rfl, rfl⟩ := (code_eq_iff hp hp1).mp h
    omega
  · have hpos := (code_lt_iff hp1 hp).mp h
    have := (agreeB_strict hpos hag).2
    omega

theorem wf_pathInc {t : blt_node} (h : WF t) : pathInc t := by
  induction h with
  | leaf it hv => exact trivial
  | node b p l r hp hl hr h0 h1 hag ihl ihr =>
    refine ⟨?_, ?_, ihl, ihr⟩
    · cases hl with
      | leaf it hv => exact trivial
      | node b1 p1 l1 r1 hp1 hl1 hr1 h01 h11 hag1 =>
        obtain ⟨u, hu⟩ := exists_mem_keys l1
        obtain ⟨v, hv⟩ := exists_mem_keys r1
        have hul : u ∈ keys (blt_node.node b1 (255 - 2 ^ p1) l1 r1) := by
          rw [keys_node]; exact List.mem_append.mpr (Or.inl hu)
        have hvl : v ∈ keys (blt_node.node b1 (255 - 2 ^ p1) l1 r1) := by
          rw [keys_node]; exact List.mem_append.mpr (Or.inr hv)
        have hagr := hag u v (List.mem_append.mpr (Or.inl hul))
          (List.mem_append.mpr (Or.inl hvl))
        exact code_lt_of_split hp hp1 hagr (h0 u hul) (h0 v hvl)
          (h01 u hu) (h11 v hv)
    · cases hr with
      | leaf it hv => exact trivial
      | node b1 p1 l1 r1 hp1 hl1 hr1 h01 h11 hag1 =>
        obtain ⟨u, hu⟩ := exists_mem_keys l1
        obtain ⟨v, hv⟩ := exists_mem_keys r1
        have hul : u ∈ keys (blt_node.node b1 (255 - 2 ^ p1) l1 r1) := by
          rw [keys_node]; exact List.mem_append.mpr (Or.inl hu)
        have hvl : v ∈ keys (blt_node.node b1 (255 - 2 ^ p1) l1 r1) := by
          rw [keys_node]; exact List.mem_append.mpr (Or.inr hv)
        have hagr := hag u v (List.mem_append.mpr (Or.inr hul))
          (List.mem_append.mpr (Or.inr hvl))
        exact code_lt_of_split hp hp1 hagr (h1 u hul) (h1 v hvl)
          (h01 u hu) (h11 v hv)

end Blt

namespace Blt

theorem wf_node_inv {b m : Nat} {l r : blt_node} (h : WF (.node b m l r)) :
    ∃ p, p < 8 ∧ m = 255 - 2 ^ p ∧ WF l ∧ WF r ∧
      (∀ k, k ∈ keys l → bitOf (keyByte k b) p = 0) ∧
      (∀ k, k ∈ keys r → bitOf (keyByte k b) p = 1) ∧
      (∀ u v, u ∈ keys l ++ keys r → v ∈ keys l ++ keys r → agreeB b p u v) := by
  cases h with
  | node b p l r hp hl hr h0 h1 hag => exact ⟨p, hp, rfl, hl, hr, h0, h1, hag⟩

theorem bitOf_zero (p : Nat) : bitOf 0 p = 0 := by
  simp [bitOf, Nat.zero_shiftRight]

theorem decide_cond_eq {key : List Nat} {b p : Nat} (hk : ValidKey key)
    (hp : p < 8) :
    (Blt.decide (keyByte key b) (255 - 2 ^ p) ≠ 0 ↔
      bitOf (keyByte key b) p = 1) := by
  rw [decide_mask (keyByte_lt hk b) hp]
  rcases bitOf_cases (keyByte key b) p with h0 | h0 <;> simp [h0]

theorem decide_cond_eq2 {key : List Nat} {b p : Nat} (hk : ValidKey key)
    (hp : p < 8) :
    (Blt.decide (255 - 2 ^ p) (keyByte key b) ≠ 0 ↔
      bitOf (keyByte key b) p = 1) := by
  rw [decide_mask' (keyByte_lt hk b) hp]
  rcases bitOf_cases (keyByte key b) p with h0 | h0 <;> simp [h0]

theorem decide_cond_eq2' {key : List Nat} {b p : Nat} (hk : ValidKey key)
    (hp : p < 8) :
    (Blt.decide (255 - 2 ^ p) (keyByte key b) = 0 ↔
      bitOf (keyByte key b) p = 0) := by
  rw [decide_mask' (keyByte_lt hk b) hp]

theorem guard_eq {key : List Nat} {b p : Nat} (hk : ValidKey key) (hp : p < 8) :
    ((b < key.length ∧ Blt.decide (keyByte key b) (255 - 2 ^ p) ≠ 0) ↔
      bitOf (keyByte key b) p = 1) := by
  constructor
  · rintro ⟨_, h⟩
    exact (decide_cond_eq hk hp).mp h
  · intro h1
    refine ⟨?_, (decide_cond_eq hk hp).mpr h1⟩
    by_contra hb
    push_neg at hb
    have h0 : keyByte key b = 0 := (keyByte_eq_zero_iff hk b).mpr hb
    rw [h0, bitOf_zero] at h1
    omega

theorem confident_get_mem (t : blt_node) (key : List Nat) :
    confident_get t key ∈ leaves t := by
  induction t with
  | leaf it => simp [confident_get, leaves]
  | node b m l r ihl ihr =>
    rw [confident_get]
    by_cases hc : b < key.length ∧ Blt.decide (keyByte key b) m ≠ 0
    · rw [if_pos hc]
      exact List.mem_append.mpr (Or.inr ihr)
    · rw [if_neg hc]
      exact List.mem_append.mpr (Or.inl ihl)

theorem wf_node_byte_le {b m : Nat} {l r : blt_node} {key : List Nat}
    (h : WF (.node b m l r)) (hk : key ∈ keys (.node b m l r)) :
    b ≤ key.length := by
  obtain ⟨p, hp, hm, hl, hr, h0, h1, hag⟩ := wf_node_inv h
  by_contra hb
  push_neg at hb
  obtain ⟨u, hu⟩ := exists_mem_keys l
  obtain ⟨v, hv⟩ := exists_mem_keys r
  have hmem : ∀ w, w ∈ keys l ++ keys r → w ∈ keys (blt_node.node b m l r) := by
    intro w hw
    rw [keys_node]
    exact hw
  have hkey : ValidKey key := wf_valid_key h hk
  have h0k : keyByte key key.length = 0 :=
    (keyByte_eq_zero_iff hkey _).mpr (le_refl _)
  rw [keys_node] at hk
  have hagu := hag key u hk (List.mem_append.mpr (Or.inl hu))
  have hagv := hag key v hk (List.mem_append.mpr (Or.inr hv))
  have hvu : ValidKey u := wf_valid_key h (hmem u (List.mem_append.mpr (Or.inl hu)))
  have hvv : ValidKey v := wf_valid_key h (hmem v (List.mem_append.mpr (Or.inr hv)))
  have hu0 : keyByte u b = 0 := by
    have h1u : keyByte u key.length = 0 := by
      rw [← hagu.1 key.length hb]; exact h0k
    have hlu : u.length ≤ key.length := (keyByte_eq_zero_iff hvu _).mp h1u
    exact (keyByte_eq_zero_iff hvu _).mpr (by omega)
  have hv0 : keyByte v b = 0 := by
    have h1v : keyByte v key.length = 0 := by
      rw [← hagv.1 key.length hb]; exact h0k
    have hlv : v.length ≤ key.length := (keyByte_eq_zero_iff hvv _).mp h1v
    exact (keyByte_eq_zero_iff hvv _).mpr (by omega)
  have hbu := h0 u hu
  have hbv := h1 v hv
  rw [hu0, bitOf_zero] at hbu
  rw [hv0, bitOf_zero] at hbv
  omega

theorem confident_get_of_mem {t : blt_node} (h : WF t) {key : List Nat}
    (hk : key ∈ keys t) : (confident_get t key).key = key := by
  induction h with
  | leaf it hv =>
    rw [keys_leaf] at hk
    simp only [List.mem_singleton] at hk
    rw [confident_get]
    exact hk.symm
  | node b p l r hp hl hr h0 h1 hag ihl ihr =>
    have hw : WF (.node b (255 - 2 ^ p) l r) := WF.node b p l r hp hl hr h0 h1 hag
    have hkey : ValidKey key := wf_valid_key hw hk
    rw [keys_node] at hk
    rw [confident_get]
    rcases List.mem_append.mp hk with hkl | hkr
    · have hbit := h0 key hkl
      rw [if_neg (by rw [guard_eq hkey hp, hbit]; omega)]
      exact ihl hkl
    · have hbit := h1 key hkr
      rw [if_pos ((guard_eq hkey hp).mpr hbit)]
      exact ihr hkr

theorem blt_get_go_of_mem {t : blt_node} (h : WF t) {key : List Nat}
    (hk : key ∈ keys t) :
    ∃ it, it ∈ leaves t ∧ it.key = key ∧ blt_get_go t key = some it := by
  induction h with
  | leaf it hv =>
    rw [keys_leaf] at hk
    simp only [List.mem_singleton] at hk
    exact ⟨it, by simp [leaves], hk.symm, by rw [blt_get_go, if_pos hk]⟩
  | node b p l r hp hl hr h0 h1 hag ihl ihr =>
    have hw : WF (.node b (255 - 2 ^ p) l r) := WF.node b p l r hp hl hr h0 h1 hag
    have hble := wf_node_byte_le hw hk
    have hkey : ValidKey key := wf_valid_key hw hk
    rw [keys_node] at hk
    rw [blt_get_go]
    rw [if_neg (by omega : ¬ b > key.length)]
    rcases List.mem_append.mp hk with hkl | hkr
    · have hbit := h0 key hkl
      rw [if_neg (by rw [decide_cond_eq hkey hp, hbit]; omega)]
      obtain ⟨it, hm1, hm2, hm3⟩ := ihl hkl
      exact ⟨it, List.mem_append.mpr (Or.inl hm1), hm2, hm3⟩
    · have hbit := h1 key hkr
      rw [if_pos ((decide_cond_eq hkey hp).mpr hbit)]
      obtain ⟨it, hm1, hm2, hm3⟩ := ihr hkr
      exact ⟨it, List.mem_append.mpr (Or.inr hm1), hm2, hm3⟩

theorem blt_get_go_not_mem {t : blt_node} (h : WF t) {key : List Nat}
    (hkey : ValidKey key) (hk : key ∉ keys t) : blt_get_go t key = none := by
  induction h with
  | leaf it hv =>
    rw [keys_leaf] at hk
    simp only [List.mem_singleton] at hk
    rw [blt_get_go, if_neg hk]
  | node b p l r hp hl hr h0 h1 hag ihl ihr =>
    rw [blt_get_go]
    by_cases hb : b > key.length
    · rw [if_pos hb]
    · rw [if_neg hb]
      rw [keys_node] at hk
      by_cases hbit : bitOf (keyByte key b) p = 1
      · rw [if_pos ((decide_cond_eq hkey hp).mpr hbit)]
        exact ihr (fun hc => hk (List.mem_append.mpr (Or.inr hc)))
      · rw [if_neg (by rw [decide_cond_eq hkey hp]; exact hbit)]
        exact ihl (fun hc => hk (List.mem_append.mpr (Or.inl hc)))

theorem blt_get_of_mem {t : Option blt_node} (h : WFo t) {key : List Nat}
    (hk : key ∈ keysO t) :
    ∃ it, it ∈ leavesO t ∧ it.key = key ∧ blt_get t key = some it := by
  match t with
  | none => simp [keysO] at hk
  | some root => exact blt_get_go_of_mem h hk

theorem blt_get_not_mem {t : Option blt_node} (h : WFo t) {key : List Nat}
    (hkey : ValidKey key) (hk : key ∉ keysO t) : blt_get t key = none := by
  match t with
  | none => rfl
  | some root => exact blt_get_go_not_mem h hkey hk

theorem blt_get_unique {t : Option blt_node} (h : WFo t) {key : List Nat}
    {it0 : BLT_IT} (hmem : it0 ∈ leavesO t) (hkey : it0.key = key) :
    blt_get t key = some it0 := by
  match t with
  | none => simp [leavesO] at hmem
  | some root =>
    obtain ⟨it, hm1, hm2, hm3⟩ :=
      blt_get_go_of_mem h (hkey ▸ mem_keys_of_mem_leaves hmem)
    show blt_get_go root key = some it0
    rw [hm3]
    have := wf_leaf_inj h hm1 hmem (by rw [hm2, hkey])
    rw [this]

end Blt

namespace Blt

theorem code_le_iff {b1 p1 b2 p2 : Nat} (h1 : p1 < 8) (h2 : p2 < 8) :
    (b1 <<< 8) + (255 - 2 ^ p1) ≤ (b2 <<< 8) + (255 - 2 ^ p2) ↔
      b1 < b2 ∨ (b1 = b2 ∧ p2 ≤ p1) := by
  rw [Nat.shiftLeft_eq, Nat.shiftLeft_eq]
  norm_num
  have e1 : 2 ^ p1 ≤ 2 ^ 7 := Nat.pow_le_pow_right (by omega) (by omega)
  have e2 : 2 ^ p2 ≤ 2 ^ 7 := Nat.pow_le_pow_right (by omega) (by omega)
  have e3 : 1 ≤ 2 ^ p1 := Nat.one_le_two_pow
  have e4 : 1 ≤ 2 ^ p2 := Nat.one_le_two_pow
  have e5 : 2 ^ p2 < 2 ^ p1 ↔ p2 < p1 := Nat.pow_lt_pow_iff_right (by omega)
  have e6 : 2 ^ p1 < 2 ^ p2 ↔ p1 < p2 := Nat.pow_lt_pow_iff_right (by omega)
  have e7 : (2 : Nat) ^ 7 = 128 := by norm_num
  omega

theorem keys_perm_of_leaves_perm {t2 : blt_node} {newIt : BLT_IT}
    {old : blt_node} (h : (leaves t2).Perm (newIt :: leaves old)) :
    (keys t2).Perm (newIt.key :: keys old) := by
  have h2 := h.map BLT_IT.key
  simpa [keys] using h2

theorem mem_keys_of_perm {t2 : blt_node} {newIt : BLT_IT} {old : blt_node}
    (h : (leaves t2).Perm (newIt :: leaves old)) {k : List Nat}
    (hk : k ∈ keys t2) : k = newIt.key ∨ k ∈ keys old := by
  have h2 := (keys_perm_of_leaves_perm h).mem_iff.mp hk
  simpa [keys] using h2

theorem wf_mkPair {key : List Nat} {byte p ndir : Nat} {newIt : BLT_IT}
    {old : blt_node}
    (hkey : ValidKey key) (hp : p < 8) (hnew : newIt.key = key)
    (hold : WF old)
    (hagree : ∀ u, u ∈ keys old → agreeB byte p key u)
    (hndir : ndir = bitOf (keyByte key byte) p)
    (hbits : ∀ u, u ∈ keys old → bitOf (keyByte u byte) p = 1 - ndir) :
    WF (mkPair byte (255 - 2 ^ p) ndir newIt old) ∧
    (leaves (mkPair byte (255 - 2 ^ p) ndir newIt old)).Perm
      (newIt :: leaves old) := by
  have hkeysnew : keys (.leaf newIt) = [key] := by rw [keys_leaf, hnew]
  have hnd01 : ndir = 0 ∨ ndir = 1 := by
    rcases bitOf_cases (keyByte key byte) p with h | h <;> omega
  have hwfnew : WF (.leaf newIt) := WF.leaf newIt (by rw [hnew]; exact hkey)
  rcases hnd01 with h | h
  · subst h
    rw [mkPair, if_pos rfl]
    constructor
    · refine WF.node byte p (.leaf newIt) old hp hwfnew hold ?_ ?_ ?_
      · intro k hk
        rw [hkeysnew] at hk
        simp only [List.mem_singleton] at hk
        subst hk
        omega
      · intro k hk
        have := hbits k hk
        omega
      · intro u v hu hv
        rw [hkeysnew] at hu hv
        have hmem : ∀ w, w ∈ [key] ++ keys old → w = key ∨ w ∈ keys old := by
          intro w hw
          rcases List.mem_append.mp hw with hw | hw
          · simp only [List.mem_singleton] at hw
            exact Or.inl hw
          · exact Or.inr hw
        rcases hmem u hu with rfl | hu2 <;> rcases hmem v hv with rfl | hv2
        · exact agreeB_refl _ _ _
        · exact hagree v hv2
        · exact agreeB_symm (hagree u hu2)
        · exact agreeB_trans (agreeB_symm (hagree u hu2)) (hagree v hv2)
    · exact List.Perm.refl _
  · subst h
    rw [mkPair, if_neg (by omega)]
    constructor
    · refine WF.node byte p old (.leaf newIt) hp hold hwfnew ?_ ?_ ?_
      · intro k hk
        have := hbits k hk
        omega
      · intro k hk
        rw [hkeysnew] at hk
        simp only [List.mem_singleton] at hk
        subst hk
        omega
      · intro u v hu hv
        have hmem : ∀ w, w ∈ keys old ++ [key] → w = key ∨ w ∈ keys old := by
          intro w hw
          rcases List.mem_append.mp hw with hw | hw
          · exact Or.inr hw
          · simp only [List.mem_singleton] at hw
            exact Or.inl hw
        rw [hkeysnew] at hu hv
        rcases hmem u hu with rfl | hu2 <;> rcases hmem v hv with rfl | hv2
        · exact agreeB_refl _ _ _
        · exact hagree v hv2
        · exact agreeB_symm (hagree u hu2)
        · exact agreeB_trans (agreeB_symm (hagree u hu2)) (hagree v hv2)
    · exact List.perm_append_comm

theorem splice_spec {key : List Nat} {byte p ndir : Nat} {newIt : BLT_IT}
    (hkey : ValidKey key) (hp : p < 8) (hnew : newIt.key = key) :
    ∀ t, WF t →
    agreeB byte p key (confident_get t key).key →
    bitOf (keyByte key byte) p ≠
      bitOf (keyByte (confident_get t key).key byte) p →
    ndir = bitOf (keyByte key byte) p →
    WF (splice t key byte (255 - 2 ^ p) ndir newIt) ∧
    (leaves (splice t key byte (255 - 2 ^ p) ndir newIt)).Perm
      (newIt :: leaves t) := by
  intro t
  induction t with
  | leaf it =>
    intro hw hagree hdiff hndir
    have hagree2 : agreeB byte p key it.key := hagree
    have hdiff2 : bitOf (keyByte key byte) p ≠ bitOf (keyByte it.key byte) p :=
      hdiff
    rw [splice]
    refine wf_mkPair hkey hp hnew hw ?_ hndir ?_
    · intro u hu
      rw [keys_leaf] at hu
      simp only [List.mem_singleton] at hu
      subst hu
      exact hagree2
    · intro u hu
      rw [keys_leaf] at hu
      simp only [List.mem_singleton] at hu
      subst hu
      have h01u := bitOf_cases (keyByte it.key byte) p
      have h01k := bitOf_cases (keyByte key byte) p
      omega
  | node b m l r ihl ihr =>
    intro hw hagree hdiff hndir
    obtain ⟨p2, hp2, hm, hl, hr, h0, h1, hag⟩ := wf_node_inv hw
    subst hm
    have hqmem : confident_get (.node b (255 - 2 ^ p2) l r) key
        ∈ leaves (.node b (255 - 2 ^ p2) l r) :=
      confident_get_mem _ _
    have hqkeys : (confident_get (.node b (255 - 2 ^ p2) l r) key).key
        ∈ keys (.node b (255 - 2 ^ p2) l r) :=
      mem_keys_of_mem_leaves hqmem
    rw [splice]
    by_cases hcode :
        (byte <<< 8) + (255 - 2 ^ p) < (b <<< 8) + (255 - 2 ^ p2)
    · rw [if_pos hcode]
      have hpos := (code_lt_iff hp hp2).mp hcode
      rw [keys_node] at hqkeys
      have hforall : ∀ u, u ∈ keys (blt_node.node b (255 - 2 ^ p2) l r) →
          agreeB byte p key u ∧ bitOf (keyByte u byte) p = 1 - ndir := by
        intro u hu
        rw [keys_node] at hu
        have hagq := hag u _ hu hqkeys
        obtain ⟨hagq2, hbitq⟩ := agreeB_strict hpos hagq
        constructor
        · exact agreeB_trans hagree (agreeB_symm (agreeB_trans hagq2 (agreeB_refl _ _ _)))
        · have h01u := bitOf_cases (keyByte u byte) p
          have h01k := bitOf_cases (keyByte key byte) p
          have h01q := bitOf_cases
            (keyByte (confident_get (.node b (255 - 2 ^ p2) l r) key).key byte) p
          omega
      exact wf_mkPair hkey hp hnew hw (fun u hu => (hforall u hu).1) hndir
        (fun u hu => (hforall u hu).2)
    · rw [if_neg hcode]
      have hle : (b <<< 8) + (255 - 2 ^ p2) ≤ (byte <<< 8) + (255 - 2 ^ p) := by
        omega
      have hpos2 := (code_le_iff hp2 hp).mp hle
      by_cases hbit : bitOf (keyByte key b) p2 = 1
      · rw [if_pos ((decide_cond_eq hkey hp2).mpr hbit)]
        have hcg : confident_get (.node b (255 - 2 ^ p2) l r) key
            = confident_get r key := by
          rw [confident_get, if_pos ((guard_eq hkey hp2).mpr hbit)]
        rw [hcg] at hagree hdiff
        obtain ⟨ihwf, ihperm⟩ := ihr hr hagree hdiff hndir
        have hqr : (confident_get r key).key ∈ keys r :=
          mem_keys_of_mem_leaves (confident_get_mem r key)
        have hkeyag : ∀ u, u ∈ keys l ++ keys r → agreeB b p2 key u := by
          intro u hu
          have hkq : agreeB b p2 key (confident_get r key).key :=
            agreeB_mono hpos2 hagree
          have hqu := hag _ u (List.mem_append.mpr (Or.inr hqr)) hu
          exact agreeB_trans hkq hqu
        constructor
        · refine WF.node b p2 l _ hp2 hl ihwf h0 ?_ ?_
          · intro k hk
            rcases mem_keys_of_perm ihperm hk with rfl | hk2
            · rw [hnew]; exact hbit
            · exact h1 k hk2
          · intro u v hu hv
            have htr : ∀ w, w ∈ keys l ++
                keys (splice r key byte (255 - 2 ^ p) ndir newIt) →
                w = key ∨ w ∈ keys l ++ keys r := by
              intro w hw
              rcases List.mem_append.mp hw with hw | hw
              · exact Or.inr (List.mem_append.mpr (Or.inl hw))
              · rcases mem_keys_of_perm ihperm hw with hw2 | hw2
                · rw [hnew] at hw2
                  exact Or.inl hw2
                · exact Or.inr (List.mem_append.mpr (Or.inr hw2))
            rcases htr u hu with rfl | hu2 <;> rcases htr v hv with rfl | hv2
            · exact agreeB_refl _ _ _
            · exact hkeyag v hv2
            · exact agreeB_symm (hkeyag u hu2)
            · exact hag u v hu2 hv2
        · show (leaves l ++
            leaves (splice r key byte (255 - 2 ^ p) ndir newIt)).Perm
            (newIt :: (leaves l ++ leaves r))
          exact (ihperm.append_left (leaves l)).trans List.perm_middle
      · have hbit0 : bitOf (keyByte key b) p2 = 0 := by
          have := bitOf_cases (keyByte key b) p2
          omega
        rw [if_neg (by rw [decide_cond_eq hkey hp2]; exact hbit)]
        have hcg : confident_get (.node b (255 - 2 ^ p2) l r) key
            = confident_get l key := by
          rw [confident_get, if_neg (by rw [guard_eq hkey hp2]; exact hbit)]
        rw [hcg] at hagree hdiff
        obtain ⟨ihwf, ihperm⟩ := ihl hl hagree hdiff hndir
        have hql : (confident_get l key).key ∈ keys l :=
          mem_keys_of_mem_leaves (confident_get_mem l key)
        have hkeyag : ∀ u, u ∈ keys l ++ keys r → agreeB b p2 key u := by
          intro u hu
          have hkq : agreeB b p2 key (confident_get l key).key :=
            agreeB_mono hpos2 hagree
          have hqu := hag _ u (List.mem_append.mpr (Or.inl hql)) hu
          exact agreeB_trans hkq hqu
        constructor
        · refine WF.node b p2 _ r hp2 ihwf hr ?_ h1 ?_
          · intro k hk
            rcases mem_keys_of_perm ihperm hk with rfl | hk2
            · rw [hnew]; exact hbit0
            · exact h0 k hk2
          · intro u v hu hv
            have htr : ∀ w, w ∈
                keys (splice l key byte (255 - 2 ^ p) ndir newIt) ++ keys r →
                w = key ∨ w ∈ keys l ++ keys r := by
              intro w hw
              rcases List.mem_append.mp hw with hw | hw
              · rcases mem_keys_of_perm ihperm hw with hw2 | hw2
                · rw [hnew] at hw2
                  exact Or.inl hw2
                · exact Or.inr (List.mem_append.mpr (Or.inl hw2))
              · exact Or.inr (List.mem_append.mpr (Or.inr hw))
            rcases htr u hu with rfl | hu2 <;> rcases htr v hv with rfl | hv2
            · exact agreeB_refl _ _ _
            · exact hkeyag v hv2
            · exact agreeB_symm (hkeyag u hu2)
            · exact hag u v hu2 hv2
        · show (leaves (splice l key byte (255 - 2 ^ p) ndir newIt) ++
            leaves r).Perm (newIt :: (leaves l ++ leaves r))
          exact ihperm.append_right (leaves r)

end Blt

namespace Blt

theorem put_with_absent {t : Option blt_node} {key : List Nat} {data : Nat}
    {cb : BLT_IT → BLT_IT × Nat}
    (h : WFo t) (hkey : ValidKey key) (hk : key ∉ keysO t) :
    ∃ root2, (blt_put_with t key data cb).1 = some root2 ∧ WF root2 ∧
      (leaves root2).Perm (⟨key, data⟩ :: leavesO t) ∧
      (blt_put_with t key data cb).2 = 0 := by
  match t with
  | none =>
    refine ⟨.leaf ⟨key, data⟩, rfl, WF.leaf _ hkey, ?_, rfl⟩
    exact List.Perm.refl _
  | some root =>
    have hq := confident_get_mem root key
    have hqk : (confident_get root key).key ≠ key := by
      intro he
      exact hk (he ▸ mem_keys_of_mem_leaves hq)
    rcases hcd : critDiff key (confident_get root key).key with _ | ⟨byte, x0⟩
    · exact absurd ((critDiff_eq_none_iff _ _).mp hcd).symm hqk
    · have hqv : ValidKey (confident_get root key).key := wf_valid h _ hq
      obtain ⟨hbelow, hxor, hx0, hx256⟩ := critDiff_spec hkey hqv hcd
      obtain ⟨hp8, hmask, hbitx, hhi⟩ := to_mask_spec x0 hx256 hx0
      have hagree : agreeB byte (critPos x0) key (confident_get root key).key := by
        refine ⟨hbelow, ?_⟩
        have hxs : (keyByte key byte ^^^
            keyByte (confident_get root key).key byte)
              >>> (critPos x0 + 1) = 0 := by
          rw [hxor]; exact hhi
        rw [xor_shiftRight] at hxs
        exact Nat.xor_eq_zero.mp hxs
      have hdiff : bitOf (keyByte key byte) (critPos x0) ≠
          bitOf (keyByte (confident_get root key).key byte) (critPos x0) := by
        apply (bitOf_xor _ _ _).mp
        rw [hxor]; exact hbitx
      have heq : blt_put_with (some root) key data cb =
          (some (splice root key byte (to_mask x0)
            (Blt.decide (keyByte key byte) (to_mask x0)) ⟨key, data⟩), 0) := by
        simp only [blt_put_with]
        rw [hcd]
      rw [hmask, decide_mask (keyByte_lt hkey byte) hp8] at heq
      obtain ⟨hwf2, hperm⟩ :=
        @splice_spec key byte (critPos x0) (bitOf (keyByte key byte) (critPos x0))
          ⟨key, data⟩ hkey hp8 rfl root h hagree hdiff rfl
      exact ⟨_, by rw [heq], hwf2, hperm, by rw [heq]⟩

theorem modify_at_leaves (t : blt_node) (key : List Nat) (f : BLT_IT → BLT_IT) :
    ∃ L1 L2, leaves t = L1 ++ confident_get t key :: L2 ∧
      leaves (modify_at t key f) = L1 ++ f (confident_get t key) :: L2 := by
  induction t with
  | leaf it => exact ⟨[], [], rfl, rfl⟩
  | node b m l r ihl ihr =>
    by_cases hc : b < key.length ∧ Blt.decide (keyByte key b) m ≠ 0
    · obtain ⟨L1, L2, he1, he2⟩ := ihr
      refine ⟨leaves l ++ L1, L2, ?_, ?_⟩
      · show leaves l ++ leaves r = _
        rw [confident_get, if_pos hc, he1]
        simp [List.append_assoc]
      · rw [modify_at, if_pos hc]
        show leaves l ++ leaves (modify_at r key f) = _
        rw [confident_get, if_pos hc, he2]
        simp [List.append_assoc]
    · obtain ⟨L1, L2, he1, he2⟩ := ihl
      refine ⟨L1, L2 ++ leaves r, ?_, ?_⟩
      · show leaves l ++ leaves r = _
        rw [confident_get, if_neg hc, he1]
        simp [List.append_assoc]
      · rw [modify_at, if_neg hc]
        show leaves (modify_at l key f) ++ leaves r = _
        rw [confident_get, if_neg hc, he2]
        simp [List.append_assoc]

theorem modify_at_keys {t : blt_node} {key : List Nat} {f : BLT_IT → BLT_IT}
    (hf : ∀ it, (f it).key = it.key) : keys (modify_at t key f) = keys t := by
  induction t with
  | leaf it => simp [modify_at, keys, leaves, hf]
  | node b m l r ihl ihr =>
    by_cases hc : b < key.length ∧ Blt.decide (keyByte key b) m ≠ 0
    · rw [modify_at, if_pos hc, keys_node, keys_node, ihr]
    · rw [modify_at, if_neg hc, keys_node, keys_node, ihl]

theorem modify_at_wf {t : blt_node} {key : List Nat} {f : BLT_IT → BLT_IT}
    (h : WF t) (hf : ∀ it, (f it).key = it.key) : WF (modify_at t key f) := by
  induction h with
  | leaf it hv =>
    rw [modify_at]
    exact WF.leaf _ (by rw [hf]; exact hv)
  | node b p l r hp hl hr h0 h1 hag ihl ihr =>
    by_cases hc : b < key.length ∧
        Blt.decide (keyByte key b) (255 - 2 ^ p) ≠ 0
    · rw [modify_at, if_pos hc]
      refine WF.node b p l _ hp hl ihr h0 ?_ ?_
      · intro k hk
        rw [modify_at_keys hf] at hk
        exact h1 k hk
      · intro u v hu hv
        rw [modify_at_keys hf] at hu hv
        exact hag u v hu hv
    · rw [modify_at, if_neg hc]
      refine WF.node b p _ r hp ihl hr ?_ h1 ?_
      · intro k hk
        rw [modify_at_keys hf] at hk
        exact h0 k hk
      · intro u v hu hv
        rw [modify_at_keys hf] at hu hv
        exact hag u v hu hv

theorem put_with_present {root : blt_node} {key : List Nat} {data : Nat}
    {cb : BLT_IT → BLT_IT × Nat}
    (h : WF root) (hkey : ValidKey key) (hk : key ∈ keys root) :
    ∃ it0 L1 L2, it0 ∈ leaves root ∧ it0.key = key ∧
      leaves root = L1 ++ it0 :: L2 ∧
      (blt_put_with (some root) key data cb).1
        = some (modify_at root key (fun it => (cb it).1)) ∧
      leaves (modify_at root key (fun it => (cb it).1))
        = L1 ++ (cb it0).1 :: L2 ∧
      (blt_put_with (some root) key data cb).2 = (cb it0).2 := by
  have hcgk := confident_get_of_mem h hk
  have hcd : critDiff key (confident_get root key).key = none :=
    (critDiff_eq_none_iff _ _).mpr hcgk.symm
  obtain ⟨L1, L2, he1, he2⟩ := modify_at_leaves root key (fun it => (cb it).1)
  refine ⟨confident_get root key, L1, L2, confident_get_mem root key, hcgk,
    he1, ?_, he2, ?_⟩
  · simp only [blt_put_with]
    rw [hcd]
  · simp only [blt_put_with]
    rw [hcd]

theorem blt_put_with_wf {t : Option blt_node} {key : List Nat} {data : Nat}
    {cb : BLT_IT → BLT_IT × Nat} (h : WFo t) (hkey : ValidKey key)
    (hcb : ∀ it, ((cb it).1).key = it.key) :
    WFo (blt_put_with t key data cb).1 := by
  match t with
  | none => exact WF.leaf _ hkey
  | some root =>
    by_cases hk : key ∈ keys root
    · obtain ⟨it0, L1, L2, _, _, _, heq, _, _⟩ := put_with_present h hkey hk
      rw [heq]
      exact modify_at_wf h hcb
    · obtain ⟨root2, heq, hwf2, _, _⟩ := put_with_absent h hkey hk
      rw [heq]
      exact hwf2

theorem blt_put_wf {t : Option blt_node} {key : List Nat} {data : Nat}
    (h : WFo t) (hkey : ValidKey key) : WFo (blt_put t key data).1 :=
  blt_put_with_wf h hkey (fun _ => rfl)

end Blt

namespace Blt

theorem delete_go_not_mem {t : blt_node} (h : WF t) {key : List Nat}
    (hkey : ValidKey key) (hk : key ∉ keys t) : delete_go t key = none := by
  induction h with
  | leaf it hv =>
    rw [keys_leaf] at hk
    simp only [List.mem_singleton] at hk
    rw [delete_go, if_neg hk]
  | node b p l r hp hl hr h0 h1 hag ihl ihr =>
    rw [delete_go]
    by_cases hb : b > key.length
    · rw [if_pos hb]
    · rw [if_neg hb]
      rw [keys_node] at hk
      by_cases hbit : bitOf (keyByte key b) p = 1
      · rw [if_pos ((decide_cond_eq2 hkey hp).mpr hbit)]
        rw [ihr (fun hc => hk (List.mem_append.mpr (Or.inr hc)))]
      · rw [if_neg (by rw [decide_cond_eq2 hkey hp]; exact hbit)]
        rw [ihl (fun hc => hk (List.mem_append.mpr (Or.inl hc)))]

theorem delete_go_mem {t : blt_node} (h : WF t) {key : List Nat}
    (hk : key ∈ keys t) :
    ∃ t2 it0, delete_go t key = some t2 ∧ it0.key = key ∧
      (leaves t).Perm (it0 :: leavesO t2) ∧ WFo t2 := by
  induction h with
  | leaf it hv =>
    rw [keys_leaf] at hk
    simp only [List.mem_singleton] at hk
    refine ⟨none, it, ?_, hk.symm, ?_, trivial⟩
    · rw [delete_go, if_pos hk]
    · exact List.Perm.refl _
  | node b p l r hp hl hr h0 h1 hag ihl ihr =>
    have hw : WF (.node b (255 - 2 ^ p) l r) :=
      WF.node b p l r hp hl hr h0 h1 hag
    have hble := wf_node_byte_le hw hk
    have hkey : ValidKey key := wf_valid_key hw hk
    rw [keys_node] at hk
    rw [delete_go, if_neg (by omega : ¬ b > key.length)]
    rcases List.mem_append.mp hk with hkl | hkr
    · have hbit := h0 key hkl
      rw [if_neg (by rw [decide_cond_eq2 hkey hp, hbit]; omega)]
      obtain ⟨t2, it0, hd, hik, hperm, hwf2⟩ := ihl hkl
      rw [hd]
      cases t2 with
      | none =>
        refine ⟨some r, it0, rfl, hik, ?_, hr⟩
        show (leaves l ++ leaves r).Perm (it0 :: leaves r)
        exact hperm.append_right (leaves r)
      | some l2 =>
        refine ⟨some (.node b (255 - 2 ^ p) l2 r), it0, rfl, hik, ?_, ?_⟩
        · show (leaves l ++ leaves r).Perm (it0 :: (leaves l2 ++ leaves r))
          exact hperm.append_right (leaves r)
        · have hsub : ∀ k, k ∈ keys l2 → k ∈ keys l := by
            intro k hkk
            obtain ⟨it, hit, rfl⟩ := List.mem_map.mp hkk
            have hml : it ∈ leaves l :=
              hperm.symm.subset (by simp [leavesO, hit])
            exact mem_keys_of_mem_leaves hml
          refine WF.node b p l2 r hp hwf2 hr
            (fun k hkk => h0 k (hsub k hkk)) h1 ?_
          intro u v hu hv
          have htr : ∀ w, w ∈ keys l2 ++ keys r → w ∈ keys l ++ keys r := by
            intro w hw
            rcases List.mem_append.mp hw with hw | hw
            · exact List.mem_append.mpr (Or.inl (hsub w hw))
            · exact List.mem_append.mpr (Or.inr hw)
          exact hag u v (htr u hu) (htr v hv)
    · have hbit := h1 key hkr
      rw [if_pos ((decide_cond_eq2 hkey hp).mpr hbit)]
      obtain ⟨t2, it0, hd, hik, hperm, hwf2⟩ := ihr hkr
      rw [hd]
      cases t2 with
      | none =>
        refine ⟨some l, it0, rfl, hik, ?_, hl⟩
        show (leaves l ++ leaves r).Perm (it0 :: leaves l)
        have h2 := (hperm.append_left (leaves l)).trans List.perm_middle
        simpa [leavesO] using h2
      | some r2 =>
        refine ⟨some (.node b (255 - 2 ^ p) l r2), it0, rfl, hik, ?_, ?_⟩
        · show (leaves l ++ leaves r).Perm (it0 :: (leaves l ++ leaves r2))
          exact (hperm.append_left (leaves l)).trans List.perm_middle
        · have hsub : ∀ k, k ∈ keys r2 → k ∈ keys r := by
            intro k hkk
            obtain ⟨it, hit, rfl⟩ := List.mem_map.mp hkk
            have hmr : it ∈ leaves r :=
              hperm.symm.subset (by simp [leavesO, hit])
            exact mem_keys_of_mem_leaves hmr
          refine WF.node b p l r2 hp hl hwf2 h0
            (fun k hkk => h1 k (hsub k hkk)) ?_
          intro u v hu hv
          have htr : ∀ w, w ∈ keys l ++ keys r2 → w ∈ keys l ++ keys r := by
            intro w hw
            rcases List.mem_append.mp hw with hw | hw
            · exact List.mem_append.mpr (Or.inl hw)
            · exact List.mem_append.mpr (Or.inr (hsub w hw))
          exact hag u v (htr u hu) (htr v hv)

theorem blt_delete_not_mem {t : Option blt_node} (h : WFo t) {key : List Nat}
    (hkey : ValidKey key) (hk : key ∉ keysO t) :
    blt_delete t key = (t, false) := by
  match t with
  | none => rfl
  | some root =>
    simp only [blt_delete]
    rw [delete_go_not_mem h hkey hk]

theorem blt_delete_mem {t : Option blt_node} (h : WFo t) {key : List Nat}
    (hk : key ∈ keysO t) :
    ∃ t2 it0, blt_delete t key = (t2, true) ∧ it0.key = key ∧
      (leavesO t).Perm (it0 :: leavesO t2) ∧ WFo t2 := by
  match t with
  | none => simp [keysO] at hk
  | some root =>
    obtain ⟨t2, it0, hd, hik, hperm, hwf2⟩ := delete_go_mem h hk
    refine ⟨t2, it0, ?_, hik, hperm, hwf2⟩
    simp only [blt_delete]
    rw [hd]

theorem keysO_nodup {t : Option blt_node} (h : WFo t) : (keysO t).Nodup := by
  match t with
  | none => simp [keysO]
  | some root => exact wf_nodup h

theorem blt_delete_wf {t : Option blt_node} (h : WFo t) {key : List Nat}
    (hkey : ValidKey key) : WFo (blt_delete t key).1 := by
  by_cases hk : key ∈ keysO t
  · obtain ⟨t2, it0, hd, _, _, hwf2⟩ := blt_delete_mem h hk
    rw [hd]
    exact hwf2
  · rw [blt_delete_not_mem h hkey hk]
    exact h

theorem reachable_wf {t : Option blt_node} (h : Reachable t) : WFo t := by
  induction h with
  | empty => trivial
  | put t k d hr hv ih => exact blt_put_wf ih hv
  | del t k hr hv ih => exact blt_delete_wf ih hv

end Blt

namespace Blt

theorem or_some_absorb (a : Option BLT_IT) (y : BLT_IT) (c : Option BLT_IT) :
    (a.or (some y)).or c = a.or (some y) := by
  cases a <;> rfl

theorem nextprev_go_spec {key : List Nat} :
    ∀ (t : blt_node) (other : Option blt_node) (L1 L2 : List BLT_IT)
      (it0 : BLT_IT),
    WF t → it0.key = key → leaves t = L1 ++ it0 :: L2 →
    blt_firstlast (nextprev_go t key 0 other) 0 =
      (L2.head?).or (blt_firstlast other 0) := by
  intro t
  induction t with
  | leaf it =>
    intro other L1 L2 it0 hw hik hsplit
    have hL : L1 = [] ∧ it0 = it ∧ L2 = [] := by
      have h2 : ([it] : List BLT_IT) = L1 ++ it0 :: L2 := hsplit
      cases L1 with
      | nil =>
        simp only [List.nil_append, List.cons.injEq] at h2
        exact ⟨rfl, h2.1.symm, h2.2.symm⟩
      | cons a as =>
        simp only [List.cons_append, List.cons.injEq] at h2
        obtain ⟨_, h3⟩ := h2
        cases as <;> simp at h3
    obtain ⟨rfl, -, rfl⟩ := hL
    rfl
  | node b m l r ihl ihr =>
    intro other L1 L2 it0 hw hik hsplit
    obtain ⟨p, hp, hm, hl, hr, h0, h1, hag⟩ := wf_node_inv hw
    subst hm
    have hkey : ValidKey key := by
      have hit0mem : it0 ∈ leaves (.node b (255 - 2 ^ p) l r) := by
        rw [hsplit]; simp
      exact hik ▸ wf_valid hw it0 hit0mem
    have hsplit2 : leaves l ++ leaves r = L1 ++ it0 :: L2 := hsplit
    rcases List.append_eq_append_iff.mp hsplit2 with ⟨a2, ha1, ha2⟩ | ⟨c2, hc1, hc2⟩
    · have hit0r : it0 ∈ leaves r := by rw [ha2]; simp
      have hbit : bitOf (keyByte key b) p = 1 :=
        h1 key (hik ▸ mem_keys_of_mem_leaves hit0r)
      rw [nextprev_go]
      rw [if_neg (by rw [decide_cond_eq2' hkey hp, hbit]; omega)]
      rw [show (if (0 : Nat) = 1 then some l else other) = other from by norm_num]
      exact ihr other a2 L2 it0 hr hik ha2
    · cases c2 with
      | nil =>
        have hit0r : leaves r = it0 :: L2 := hc2.symm
        have hbit : bitOf (keyByte key b) p = 1 :=
          h1 key (hik ▸ mem_keys_of_mem_leaves (by rw [hit0r]; simp))
        rw [nextprev_go]
        rw [if_neg (by rw [decide_cond_eq2' hkey hp, hbit]; omega)]
        rw [show (if (0 : Nat) = 1 then some l else other) = other from by
          norm_num]
        exact ihr other [] L2 it0 hr hik (by rw [hit0r]; rfl)
      | cons chd ctl =>
        simp only [List.cons_append, List.cons.injEq] at hc2
        obtain ⟨hchd, hL2⟩ := hc2
        subst hchd
        subst hL2
        have hsplitl : leaves l = L1 ++ it0 :: ctl := hc1
        have hit0l : it0 ∈ leaves l := by rw [hsplitl]; simp
        have hbit : bitOf (keyByte key b) p = 0 :=
          h0 key (hik ▸ mem_keys_of_mem_leaves hit0l)
        rw [nextprev_go]
        rw [if_pos ((decide_cond_eq2' hkey hp).mpr hbit)]
        rw [show (if (0 : Nat) = 0 then some r else other) = some r from by
          norm_num]
        rw [ihl (some r) L1 ctl it0 hl hik hsplitl]
        rw [List.head?_append, firstlast_zero r]
        show (ctl.head?.or (some (firstlast r 0))) =
          ((ctl.head?.or (some (firstlast r 0))).or (blt_firstlast other 0))
        rw [or_some_absorb]

theorem blt_next_spec {root : blt_node} (h : WF root) {L1 L2 : List BLT_IT}
    {it0 : BLT_IT} (hsplit : leaves root = L1 ++ it0 :: L2) :
    blt_nextprev (some root) it0.key 0 = L2.head? := by
  have h2 := nextprev_go_spec root none L1 L2 it0 h rfl hsplit
  show blt_firstlast (nextprev_go root it0.key 0 none) 0 = L2.head?
  rw [h2]
  cases L2 <;> rfl

theorem walkFrom_spec {root : blt_node} (h : WF root) :
    ∀ (L2 L1 : List BLT_IT) (it0 : BLT_IT) (fuel : Nat),
    leaves root = L1 ++ it0 :: L2 → L2.length ≤ fuel →
    walkFrom root it0.key fuel = L2 := by
  intro L2
  induction L2 with
  | nil =>
    intro L1 it0 fuel hsplit hfuel
    cases fuel with
    | zero => rfl
    | succ f =>
      have hn : blt_nextprev (some root) it0.key 0 = none := by
        rw [blt_next_spec h hsplit, List.head?_nil]
      rw [walkFrom, hn]
  | cons it1 L2' ih =>
    intro L1 it0 fuel hsplit hfuel
    cases fuel with
    | zero => simp at hfuel
    | succ f =>
      have hn : blt_nextprev (some root) it0.key 0 = some it1 := by
        rw [blt_next_spec h hsplit, List.head?_cons]
      rw [walkFrom, hn]
      show it1 :: walkFrom root it1.key f = it1 :: L2'
      rw [ih (L1 ++ [it0]) it1 f (by rw [hsplit]; simp) (by
        simp only [List.length_cons] at hfuel
        omega)]

theorem walkList_eq {t : Option blt_node} (h : WFo t) :
    walkList t = leavesO t := by
  match t with
  | none => rfl
  | some root =>
    show firstlast root 0 ::
      walkFrom root (firstlast root 0).key (leaves root).length = leaves root
    rcases hl : leaves root with _ | ⟨a, as⟩
    · exact absurd hl (leaves_ne_nil root)
    · have ha : a = firstlast root 0 := by
        have h2 := firstlast_zero root
        rw [hl] at h2
        simpa using h2
      subst ha
      have hsp : leaves root = [] ++ firstlast root 0 :: as := by
        rw [hl]; rfl
      rw [walkFrom_spec h as [] (firstlast root 0)
        ((firstlast root 0 :: as).length) hsp (by simp)]

theorem lex_asymm {u v : List Nat} (hu : ValidKey u) (hv : ValidKey v)
    (h1 : List.Lex (· < ·) u v) (h2 : List.Lex (· < ·) v u) : False :=
  extLt_asymm ((extLt_iff_lex hu hv).mpr h1) ((extLt_iff_lex hv hu).mpr h2)

theorem lex_irrefl {u : List Nat} (hu : ValidKey u)
    (h : List.Lex (· < ·) u u) : False :=
  extLt_irrefl ((extLt_iff_lex hu hu).mpr h)

theorem keysO_pairwise_lex {t : Option blt_node} (h : WFo t) :
    List.Pairwise (List.Lex (· < ·)) (keysO t) := by
  match t with
  | none => simp [keysO]
  | some root =>
    refine (wf_pairwise h).imp_of_mem ?_
    intro a b ha hb hab
    exact (extLt_iff_lex (wf_valid_key h ha) (wf_valid_key h hb)).mp hab

theorem before_iff_lex {t : Option blt_node} (h : WFo t) {A B : List Nat}
    (hA : A ∈ keysO t) (hB : B ∈ keysO t) :
    (∃ i j : Nat, i < j ∧ (keysO t)[i]? = some A ∧ (keysO t)[j]? = some B) ↔
      List.Lex (· < ·) A B := by
  have hpw := keysO_pairwise_lex h
  have hvA : ValidKey A := by
    match t with
    | none => simp [keysO] at hA
    | some root => exact wf_valid_key h hA
  have hvB : ValidKey B := by
    match t with
    | none => simp [keysO] at hB
    | some root => exact wf_valid_key h hB
  constructor
  · rintro ⟨i, j, hij, hi, hj⟩
    rw [List.getElem?_eq_some_iff] at hi hj
    obtain ⟨hilt, hiv⟩ := hi
    obtain ⟨hjlt, hjv⟩ := hj
    have := List.pairwise_iff_getElem.mp hpw i j hilt hjlt hij
    rw [hiv, hjv] at this
    exact this
  · intro hlex
    obtain ⟨i, hilt, hiv⟩ := List.mem_iff_getElem.mp hA
    obtain ⟨j, hjlt, hjv⟩ := List.mem_iff_getElem.mp hB
    rcases Nat.lt_trichotomy i j with hij | hij | hij
    · exact ⟨i, j, hij, by rw [List.getElem?_eq_some_iff]; exact ⟨hilt, hiv⟩,
        by rw [List.getElem?_eq_some_iff]; exact ⟨hjlt, hjv⟩⟩
    · subst hij
      rw [hiv] at hjv
      subst hjv
      exact absurd hlex (fun hc => lex_irrefl hvA hc)
    · have := List.pairwise_iff_getElem.mp hpw j i hjlt hilt hij
      rw [hiv, hjv] at this
      exact absurd hlex (fun hc => lex_asymm hvA hvB hc this)

end Blt

namespace Blt

theorem lexLtB_iff_lex : ∀ u v : List Nat,
    lexLtB u v = true ↔ List.Lex (· < ·) u v := by
  intro u
  induction u with
  | nil =>
    intro v
    cases v with
    | nil =>
      constructor
      · intro h; simp [lexLtB] at h
      · intro h; cases h
    | cons b bs =>
      constructor
      · intro _; exact List.Lex.nil
      · intro _; rfl
  | cons a as ih =>
    intro v
    cases v with
    | nil =>
      constructor
      · intro h; simp [lexLtB] at h
      · intro h; cases h
    | cons b bs =>
      by_cases hab : a < b
      · simp only [lexLtB, if_pos hab]
        constructor
        · intro _; exact List.Lex.rel hab
        · intro _; trivial
      · by_cases hba : b < a
        · simp only [lexLtB, if_neg hab, if_pos hba]
          constructor
          · intro h; simp at h
          · intro h
            cases h with
            | rel h2 => omega
            | cons h2 => omega
        · have hEq : a = b := by omega
          subst hEq
          simp only [lexLtB, if_neg hab, if_neg hba]
          constructor
          · intro h; exact List.Lex.cons ((ih bs).mp h)
          · intro h
            cases h with
            | rel h2 => omega
            | cons h2 => exact (ih bs).mpr h2

theorem lexLtB_self (u : List Nat) : lexLtB u u = false := by
  induction u with
  | nil => rfl
  | cons a as ih => simp [lexLtB, ih]

theorem extLt_iff_lexLtB {u v : List Nat} (hu : ValidKey u) (hv : ValidKey v) :
    extLt u v ↔ lexLtB u v = true :=
  (extLt_iff_lex hu hv).trans (lexLtB_iff_lex u v).symm

theorem lexLtB_false_of_extLt {u v : List Nat} (hu : ValidKey u)
    (hv : ValidKey v) (h : extLt u v) : lexLtB v u = false := by
  cases hb : lexLtB v u
  · rfl
  · exact absurd ((extLt_iff_lexLtB hv hu).mpr hb)
      (fun hc => extLt_asymm h hc)

theorem lexLtB_true_of_extLt {u v : List Nat} (hu : ValidKey u)
    (hv : ValidKey v) (h : extLt u v) : lexLtB u v = true :=
  (extLt_iff_lexLtB hu hv).mp h

theorem or_none (o : Option BLT_IT) : o.or none = o := by
  cases o <;> rfl

theorem none_or (o : Option BLT_IT) : (none : Option BLT_IT).or o = o := rfl

theorem find?_head_of_all {l : List BLT_IT} {pr : BLT_IT → Bool}
    (h : ∀ x ∈ l, pr x = true) : l.find? pr = l.head? := by
  cases l with
  | nil => rfl
  | cons a as =>
    rw [List.find?_cons_of_pos _ (h a (by simp)), List.head?_cons]

theorem find?_split {l : List BLT_IT} {pr : BLT_IT → Bool} {a : BLT_IT}
    (h : l.find? pr = some a) :
    ∃ A B, l = A ++ a :: B ∧ ∀ x ∈ A, pr x = false := by
  induction l with
  | nil => simp [List.find?_nil] at h
  | cons x xs ih =>
    by_cases hx : pr x = true
    · rw [List.find?_cons_of_pos _ hx] at h
      obtain rfl : x = a := by injection h
      exact ⟨[], xs, rfl, by simp⟩
    · rw [List.find?_cons_of_neg _ hx] at h
      obtain ⟨A, B, h1, h2⟩ := ih h
      refine ⟨x :: A, B, by rw [h1]; rfl, ?_⟩
      intro y hy
      rcases List.mem_cons.mp hy with rfl | hy
      · cases hpr : pr y
        · rfl
        · exact absurd hpr hx
      · exact h2 y hy

theorem firstlast_one (t : blt_node) :
    (leaves t).reverse.head? = some (firstlast t 1) := by
  induction t with
  | leaf it => rfl
  | node b m l r ihl ihr =>
    show (leaves l ++ leaves r).reverse.head? = _
    rw [List.reverse_append, List.head?_append, ihr]
    simp [firstlast]

end Blt

namespace Blt

theorem blt_firstlast_some (t : blt_node) (dir : Nat) :
    blt_firstlast (some t) dir = some (firstlast t dir) := rfl

theorem blt_firstlast_none (dir : Nat) :
    blt_firstlast none dir = none := rfl

theorem ceil_walk_spec {key : List Nat} {byte p : Nat}
    (hkey : ValidKey key) (hp : p < 8) :
    ∀ (t : blt_node) (other : Option blt_node),
    WF t →
    agreeB byte p key (confident_get t key).key →
    bitOf (keyByte key byte) p ≠
      bitOf (keyByte (confident_get t key).key byte) p →
    blt_firstlast
      (ceilfloor_walk t key 0 byte (255 - 2 ^ p)
        (bitOf (keyByte key byte) p) other) 0 =
    ((leaves t).find? (fun it => !lexLtB it.key key)).or
      (blt_firstlast other 0) := by
  intro t
  induction t with
  | leaf it =>
    intro other hw hagree hdiff
    have hvit : ValidKey it.key := wf_valid hw it (by simp [leaves])
    have hagree2 : agreeB byte p key it.key := hagree
    have hdiff2 : bitOf (keyByte key byte) p ≠ bitOf (keyByte it.key byte) p :=
      hdiff
    rw [ceilfloor_walk]
    rcases bitOf_cases (keyByte key byte) p with hnd | hnd
    · rw [hnd, if_pos rfl, blt_firstlast_some]
      have hbit1 : bitOf (keyByte it.key byte) p = 1 := by
        have := bitOf_cases (keyByte it.key byte) p
        omega
      have hlt : extLt key it.key := extLt_of_agree hagree2 hnd hbit1
      have hpred : (!lexLtB it.key key) = true := by
        rw [lexLtB_false_of_extLt hkey hvit hlt]
        rfl
      simp only [leaves]
      have hfind : List.find? (fun it2 => !lexLtB it2.key key) [it] = some it := by
        simp [List.find?, hpred]
      rw [hfind]
      rfl
    · rw [hnd, if_neg (by omega)]
      have hbit0 : bitOf (keyByte it.key byte) p = 0 := by
        have := bitOf_cases (keyByte it.key byte) p
        omega
      have hlt : extLt it.key key :=
        extLt_of_agree (agreeB_symm hagree2) hbit0 hnd
      have hpred : (!lexLtB it.key key) = false := by
        rw [lexLtB_true_of_extLt hvit hkey hlt]
        rfl
      simp only [leaves]
      have hfind : List.find? (fun it2 => !lexLtB it2.key key) [it] = none := by
        simp [List.find?, hpred]
      rw [hfind]
      rfl
  | node b2 m2 l r ihl ihr =>
    intro other hw hagree hdiff
    obtain ⟨p2, hp2, hm, hl, hr, h0, h1, hag⟩ := wf_node_inv hw
    subst hm
    have hqmem := confident_get_mem (.node b2 (255 - 2 ^ p2) l r) key
    have hqkeys := mem_keys_of_mem_leaves hqmem
    rw [ceilfloor_walk]
    by_cases hcode :
        (byte <<< 8) + (255 - 2 ^ p) < (b2 <<< 8) + (255 - 2 ^ p2)
    · rw [if_pos hcode]
      have hpos := (code_lt_iff hp hp2).mp hcode
      rw [keys_node] at hqkeys
      have hforall : ∀ it2, it2 ∈ leaves (blt_node.node b2 (255 - 2 ^ p2) l r) →
          agreeB byte p key it2.key ∧
          bitOf (keyByte it2.key byte) p =
            bitOf (keyByte
              (confident_get (.node b2 (255 - 2 ^ p2) l r) key).key byte) p := by
        intro it2 hit2
        have hu : it2.key ∈ keys l ++ keys r := by
          rw [← keys_node]
          exact mem_keys_of_mem_leaves hit2
        have hagq := hag it2.key _ hu hqkeys
        obtain ⟨hagq2, hbitq⟩ := agreeB_strict hpos hagq
        exact ⟨agreeB_trans hagree (agreeB_symm hagq2), hbitq⟩
      rcases bitOf_cases (keyByte key byte) p with hnd | hnd
      · rw [hnd, if_pos rfl, blt_firstlast_some]
        have hall : ∀ it2 ∈ leaves (blt_node.node b2 (255 - 2 ^ p2) l r),
            (!lexLtB it2.key key) = true := by
          intro it2 hit2
          obtain ⟨hagk, hbiteq⟩ := hforall it2 hit2
          have hbit1 : bitOf (keyByte it2.key byte) p = 1 := by
            have c1 := bitOf_cases (keyByte it2.key byte) p
            have c2 := bitOf_cases (keyByte
              (confident_get (.node b2 (255 - 2 ^ p2) l r) key).key byte) p
            omega
          have hlt : extLt key it2.key := extLt_of_agree hagk hnd hbit1
          rw [lexLtB_false_of_extLt hkey (wf_valid hw it2 hit2) hlt]
          rfl
        rw [find?_head_of_all hall, firstlast_zero]
        rfl
      · rw [hnd, if_neg (by omega)]
        have hall : ∀ it2 ∈ leaves (blt_node.node b2 (255 - 2 ^ p2) l r),
            (!lexLtB it2.key key) = false := by
          intro it2 hit2
          obtain ⟨hagk, hbiteq⟩ := hforall it2 hit2
          have hbit0 : bitOf (keyByte it2.key byte) p = 0 := by
            have c1 := bitOf_cases (keyByte it2.key byte) p
            have c2 := bitOf_cases (keyByte
              (confident_get (.node b2 (255 - 2 ^ p2) l r) key).key byte) p
            omega
          have hlt : extLt it2.key key :=
            extLt_of_agree (agreeB_symm hagk) hbit0 hnd
          rw [lexLtB_true_of_extLt (wf_valid hw it2 hit2) hkey hlt]
          rfl
        have hnone : List.find? (fun it2 => !lexLtB it2.key key)
            (leaves (blt_node.node b2 (255 - 2 ^ p2) l r)) = none :=
          List.find?_eq_none.mpr (by
            intro x hx
            rw [hall x hx]
            simp)
        rw [hnone]
        rfl
    · rw [if_neg hcode]
      have hle : (b2 <<< 8) + (255 - 2 ^ p2) ≤ (byte <<< 8) + (255 - 2 ^ p) := by
        omega
      have hpos2 := (code_le_iff hp2 hp).mp hle
      by_cases hbit : bitOf (keyByte key b2) p2 = 0
      · rw [if_pos ((decide_cond_eq2' hkey hp2).mpr hbit)]
        have hcg : confident_get (.node b2 (255 - 2 ^ p2) l r) key
            = confident_get l key := by
          rw [confident_get, if_neg (by rw [guard_eq hkey hp2, hbit]; omega)]
        rw [hcg] at hagree hdiff
        rw [show (if (0 : Nat) = 0 then some r else other) = some r from by
          norm_num]
        rw [ihl (some r) hl hagree hdiff]
        simp only [leaves]
        rw [List.find?_append]
        have hallr : ∀ it2 ∈ leaves r, (!lexLtB it2.key key) = true := by
          intro it2 hit2
          have hbit1 := h1 it2.key (mem_keys_of_mem_leaves hit2)
          have hagk : agreeB b2 p2 key it2.key := by
            have hkq : agreeB b2 p2 key (confident_get l key).key :=
              agreeB_mono hpos2 hagree
            have hql : (confident_get l key).key ∈ keys l :=
              mem_keys_of_mem_leaves (confident_get_mem l key)
            have hqu := hag _ _ (List.mem_append.mpr (Or.inl hql))
              (List.mem_append.mpr (Or.inr (mem_keys_of_mem_leaves hit2)))
            exact agreeB_trans hkq hqu
          have hlt : extLt key it2.key := extLt_of_agree hagk hbit hbit1
          rw [lexLtB_false_of_extLt hkey (wf_valid hr it2 hit2) hlt]
          rfl
        rw [find?_head_of_all hallr, firstlast_zero, blt_firstlast_some]
        rw [or_some_absorb]
      · have hbit1 : bitOf (keyByte key b2) p2 = 1 := by
          have := bitOf_cases (keyByte key b2) p2
          omega
        rw [if_neg (by rw [decide_cond_eq2' hkey hp2, hbit1]; omega)]
        have hcg : confident_get (.node b2 (255 - 2 ^ p2) l r) key
            = confident_get r key := by
          rw [confident_get, if_pos ((guard_eq hkey hp2).mpr hbit1)]
        rw [hcg] at hagree hdiff
        rw [show (if (0 : Nat) = 1 then some l else other) = other from by
          norm_num]
        rw [ihr other hr hagree hdiff]
        simp only [leaves]
        rw [List.find?_append]
        have halll : ∀ it2 ∈ leaves l, (!lexLtB it2.key key) = false := by
          intro it2 hit2
          have hbit0 := h0 it2.key (mem_keys_of_mem_leaves hit2)
          have hagk : agreeB b2 p2 key it2.key := by
            have hkq : agreeB b2 p2 key (confident_get r key).key :=
              agreeB_mono hpos2 hagree
            have hqr : (confident_get r key).key ∈ keys r :=
              mem_keys_of_mem_leaves (confident_get_mem r key)
            have hqu := hag _ _ (List.mem_append.mpr (Or.inr hqr))
              (List.mem_append.mpr (Or.inl (mem_keys_of_mem_leaves hit2)))
            exact agreeB_trans hkq hqu
          have hlt : extLt it2.key key :=
            extLt_of_agree (agreeB_symm hagk) hbit0 hbit1
          rw [lexLtB_true_of_extLt (wf_valid hl it2 hit2) hkey hlt]
          rfl
        have hnone : List.find? (fun it2 => !lexLtB it2.key key)
            (leaves l) = none :=
          List.find?_eq_none.mpr (by
            intro x hx
            rw [halll x hx]
            simp)
        rw [hnone, none_or]

end Blt

namespace Blt

theorem floor_walk_spec {key : List Nat} {byte p : Nat}
    (hkey : ValidKey key) (hp : p < 8) :
    ∀ (t : blt_node) (other : Option blt_node),
    WF t →
    agreeB byte p key (confident_get t key).key →
    bitOf (keyByte key byte) p ≠
      bitOf (keyByte (confident_get t key).key byte) p →
    blt_firstlast
      (ceilfloor_walk t key 1 byte (255 - 2 ^ p)
        (bitOf (keyByte key byte) p) other) 1 =
    ((leaves t).reverse.find? (fun it2 => !lexLtB key it2.key)).or
      (blt_firstlast other 1) := by
  intro t
  induction t with
  | leaf it =>
    intro other hw hagree hdiff
    have hvit : ValidKey it.key := wf_valid hw it (by simp [leaves])
    have hagree2 : agreeB byte p key it.key := hagree
    have hdiff2 : bitOf (keyByte key byte) p ≠ bitOf (keyByte it.key byte) p :=
      hdiff
    rw [ceilfloor_walk]
    rcases bitOf_cases (keyByte key byte) p with hnd | hnd
    · rw [hnd, if_neg (by omega)]
      have hbit1 : bitOf (keyByte it.key byte) p = 1 := by
        have := bitOf_cases (keyByte it.key byte) p
        omega
      have hlt : extLt key it.key := extLt_of_agree hagree2 hnd hbit1
      have hpred : (!lexLtB key it.key) = false := by
        rw [lexLtB_true_of_extLt hkey hvit hlt]
        rfl
      simp only [leaves, List.reverse_singleton]
      have hfind : List.find? (fun it2 => !lexLtB key it2.key) [it] = none := by
        simp [List.find?, hpred]
      rw [hfind]
      rfl
    · rw [hnd, if_pos rfl, blt_firstlast_some]
      have hbit0 : bitOf (keyByte it.key byte) p = 0 := by
        have := bitOf_cases (keyByte it.key byte) p
        omega
      have hlt : extLt it.key key :=
        extLt_of_agree (agreeB_symm hagree2) hbit0 hnd
      have hpred : (!lexLtB key it.key) = true := by
        rw [lexLtB_false_of_extLt hvit hkey hlt]
        rfl
      simp only [leaves, List.reverse_singleton]
      have hfind : List.find? (fun it2 => !lexLtB key it2.key) [it] = some it := by
        simp [List.find?, hpred]
      rw [hfind]
      rfl
  | node b2 m2 l r ihl ihr =>
    intro other hw hagree hdiff
    obtain ⟨p2, hp2, hm, hl, hr, h0, h1, hag⟩ := wf_node_inv hw
    subst hm
    have hqmem := confident_get_mem (.node b2 (255 - 2 ^ p2) l r) key
    have hqkeys := mem_keys_of_mem_leaves hqmem
    rw [ceilfloor_walk]
    by_cases hcode :
        (byte <<< 8) + (255 - 2 ^ p) < (b2 <<< 8) + (255 - 2 ^ p2)
    · rw [if_pos hcode]
      have hpos := (code_lt_iff hp hp2).mp hcode
      rw [keys_node] at hqkeys
      have hforall : ∀ it2, it2 ∈ leaves (blt_node.node b2 (255 - 2 ^ p2) l r) →
          agreeB byte p key it2.key ∧
          bitOf (keyByte it2.key byte) p =
            bitOf (keyByte
              (confident_get (.node b2 (255 - 2 ^ p2) l r) key).key byte) p := by
        intro it2 hit2
        have hu : it2.key ∈ keys l ++ keys r := by
          rw [← keys_node]
          exact mem_keys_of_mem_leaves hit2
        have hagq := hag it2.key _ hu hqkeys
        obtain ⟨hagq2, hbitq⟩ := agreeB_strict hpos hagq
        exact ⟨agreeB_trans hagree (agreeB_symm hagq2), hbitq⟩
      rcases bitOf_cases (keyByte key byte) p with hnd | hnd
      · rw [hnd, if_neg (by omega)]
        have hall : ∀ it2 ∈ leaves (blt_node.node b2 (255 - 2 ^ p2) l r),
            (!lexLtB key it2.key) = false := by
          intro it2 hit2
          obtain ⟨hagk, hbiteq⟩ := hforall it2 hit2
          have hbit1 : bitOf (keyByte it2.key byte) p = 1 := by
            have c1 := bitOf_cases (keyByte it2.key byte) p
            have c2 := bitOf_cases (keyByte
              (confident_get (.node b2 (255 - 2 ^ p2) l r) key).key byte) p
            omega
          have hlt : extLt key it2.key := extLt_of_agree hagk hnd hbit1
          rw [lexLtB_true_of_extLt hkey (wf_valid hw it2 hit2) hlt]
          rfl
        have hnone : List.find? (fun it2 => !lexLtB key it2.key)
            (leaves (blt_node.node b2 (255 - 2 ^ p2) l r)).reverse = none :=
          List.find?_eq_none.mpr (by
            intro x hx
            rw [hall x (List.mem_reverse.mp hx)]
            simp)
        rw [hnone]
        rfl
      · rw [hnd, if_pos rfl, blt_firstlast_some]
        have hall : ∀ it2 ∈ leaves (blt_node.node b2 (255 - 2 ^ p2) l r),
            (!lexLtB key it2.key) = true := by
          intro it2 hit2
          obtain ⟨hagk, hbiteq⟩ := hforall it2 hit2
          have hbit0 : bitOf (keyByte it2.key byte) p = 0 := by
            have c1 := bitOf_cases (keyByte it2.key byte) p
            have c2 := bitOf_cases (keyByte
              (confident_get (.node b2 (255 - 2 ^ p2) l r) key).key byte) p
            omega
          have hlt : extLt it2.key key :=
            extLt_of_agree (agreeB_symm hagk) hbit0 hnd
          rw [lexLtB_false_of_extLt (wf_valid hw it2 hit2) hkey hlt]
          rfl
        rw [find?_head_of_all (fun x hx => hall x (List.mem_reverse.mp hx))]
        rw [firstlast_one]
        rfl
    · rw [if_neg hcode]
      have hle : (b2 <<< 8) + (255 - 2 ^ p2) ≤ (byte <<< 8) + (255 - 2 ^ p) := by
        omega
      have hpos2 := (code_le_iff hp2 hp).mp hle
      by_cases hbit : bitOf (keyByte key b2) p2 = 0
      · rw [if_pos ((decide_cond_eq2' hkey hp2).mpr hbit)]
        have hcg : confident_get (.node b2 (255 - 2 ^ p2) l r) key
            = confident_get l key := by
          rw [confident_get, if_neg (by rw [guard_eq hkey hp2, hbit]; omega)]
        rw [hcg] at hagree hdiff
        rw [show (if (1 : Nat) = 0 then some r else other) = other from by
          norm_num]
        rw [ihl other hl hagree hdiff]
        simp only [leaves]
        rw [List.reverse_append, List.find?_append]
        have hallr : ∀ it2 ∈ leaves r, (!lexLtB key it2.key) = false := by
          intro it2 hit2
          have hbit1 := h1 it2.key (mem_keys_of_mem_leaves hit2)
          have hagk : agreeB b2 p2 key it2.key := by
            have hkq : agreeB b2 p2 key (confident_get l key).key :=
              agreeB_mono hpos2 hagree
            have hql : (confident_get l key).key ∈ keys l :=
              mem_keys_of_mem_leaves (confident_get_mem l key)
            have hqu := hag _ _ (List.mem_append.mpr (Or.inl hql))
              (List.mem_append.mpr (Or.inr (mem_keys_of_mem_leaves hit2)))
            exact agreeB_trans hkq hqu
          have hlt : extLt key it2.key := extLt_of_agree hagk hbit hbit1
          rw [lexLtB_true_of_extLt hkey (wf_valid hr it2 hit2) hlt]
          rfl
        have hnone : List.find? (fun it2 => !lexLtB key it2.key)
            (leaves r).reverse = none :=
          List.find?_eq_none.mpr (by
            intro x hx
            rw [hallr x (List.mem_reverse.mp hx)]
            simp)
        rw [hnone, none_or]
      · have hbit1 : bitOf (keyByte key b2) p2 = 1 := by
          have := bitOf_cases (keyByte key b2) p2
          omega
        rw [if_neg (by rw [decide_cond_eq2' hkey hp2, hbit1]; omega)]
        have hcg : confident_get (.node b2 (255 - 2 ^ p2) l r) key
            = confident_get r key := by
          rw [confident_get, if_pos ((guard_eq hkey hp2).mpr hbit1)]
        rw [hcg] at hagree hdiff
        rw [show (if (1 : Nat) = 1 then some l else other) = some l from by
          norm_num]
        rw [ihr (some l) hr hagree hdiff]
        simp only [leaves]
        rw [List.reverse_append, List.find?_append]
        have halll : ∀ it2 ∈ leaves l, (!lexLtB key it2.key) = true := by
          intro it2 hit2
          have hbit0 := h0 it2.key (mem_keys_of_mem_leaves hit2)
          have hagk : agreeB b2 p2 key it2.key := by
            have hkq : agreeB b2 p2 key (confident_get r key).key :=
              agreeB_mono hpos2 hagree
            have hqr : (confident_get r key).key ∈ keys r :=
              mem_keys_of_mem_leaves (confident_get_mem r key)
            have hqu := hag _ _ (List.mem_append.mpr (Or.inr hqr))
              (List.mem_append.mpr (Or.inl (mem_keys_of_mem_leaves hit2)))
            exact agreeB_trans hkq hqu
          have hlt : extLt it2.key key :=
            extLt_of_agree (agreeB_symm hagk) hbit0 hbit1
          rw [lexLtB_false_of_extLt (wf_valid hl it2 hit2) hkey hlt]
          rfl
        rw [find?_head_of_all (fun x hx => halll x (List.mem_reverse.mp hx))]
        rw [firstlast_one, blt_firstlast_some, or_some_absorb]

end Blt

namespace Blt

theorem pairwise_split {root : blt_node} (h : WF root) {A B : List BLT_IT}
    {it0 : BLT_IT} (hsplit : leaves root = A ++ it0 :: B) :
    (∀ x ∈ A, extLt x.key it0.key) ∧ (∀ x ∈ B, extLt it0.key x.key) := by
  have hpair := wf_pairwise h
  rw [keys, hsplit, List.map_append, List.map_cons, List.pairwise_append]
    at hpair
  constructor
  · intro x hx
    exact hpair.2.2 x.key (List.mem_map_of_mem _ hx) it0.key (by simp)
  · intro x hx
    exact (List.pairwise_cons.mp hpair.2.1).1 x.key (List.mem_map_of_mem _ hx)

theorem blt_ceil_spec {t : Option blt_node} (h : WFo t) {key : List Nat}
    (hkey : ValidKey key) :
    blt_ceil t key = (leavesO t).find? (fun it2 => !lexLtB it2.key key) := by
  match t with
  | none => rfl
  | some root =>
    show blt_ceilfloor (some root) key 0 = _
    rcases hcd : critDiff key (confident_get root key).key with _ | ⟨byte, x0⟩
    · have hqk : key = (confident_get root key).key :=
        (critDiff_eq_none_iff _ _).mp hcd
      have heq : blt_ceilfloor (some root) key 0
          = some (confident_get root key) := by
        simp only [blt_ceilfloor]
        rw [hcd]
      rw [heq]
      obtain ⟨L1, L2, hsplit⟩ := List.append_of_mem (confident_get_mem root key)
      obtain ⟨hbefore, hafter⟩ := pairwise_split h hsplit
      show _ = List.find? _ (leaves root)
      rw [hsplit, List.find?_append]
      have hnone : List.find? (fun it2 => !lexLtB it2.key key) L1 = none :=
        List.find?_eq_none.mpr (by
          intro x hx
          have hrel := hbefore x hx
          rw [← hqk] at hrel
          have hvx : ValidKey x.key :=
            wf_valid h x (by rw [hsplit]; simp [hx])
          rw [lexLtB_true_of_extLt hvx hkey hrel]
          simp)
      rw [hnone, none_or]
      have hpredc : (!lexLtB (confident_get root key).key key) = true := by
        rw [← hqk, lexLtB_self]
        rfl
      have hfind : List.find? (fun it2 => !lexLtB it2.key key)
          (confident_get root key :: L2) = some (confident_get root key) := by
        simp [List.find?, hpredc]
      rw [hfind]
    · have hqv : ValidKey (confident_get root key).key :=
        wf_valid h _ (confident_get_mem root key)
      obtain ⟨hbelow, hxor, hx0, hx256⟩ := critDiff_spec hkey hqv hcd
      obtain ⟨hp8, hmask, hbitx, hhi⟩ := to_mask_spec x0 hx256 hx0
      have hagree : agreeB byte (critPos x0) key
          (confident_get root key).key := by
        refine ⟨hbelow, ?_⟩
        have hxs : (keyByte key byte ^^^
            keyByte (confident_get root key).key byte)
              >>> (critPos x0 + 1) = 0 := by
          rw [hxor]; exact hhi
        rw [xor_shiftRight] at hxs
        exact Nat.xor_eq_zero.mp hxs
      have hdiff : bitOf (keyByte key byte) (critPos x0) ≠
          bitOf (keyByte (confident_get root key).key byte) (critPos x0) := by
        apply (bitOf_xor _ _ _).mp
        rw [hxor]; exact hbitx
      have heq : blt_ceilfloor (some root) key 0 =
          blt_firstlast (ceilfloor_walk root key 0 byte (to_mask x0)
            (Blt.decide (to_mask x0) (keyByte key byte)) none) 0 := by
        simp only [blt_ceilfloor]
        rw [hcd]
      rw [hmask, decide_mask' (keyByte_lt hkey byte) hp8] at heq
      rw [heq, ceil_walk_spec hkey hp8 root none h hagree hdiff]
      rw [blt_firstlast_none, or_none]
      rfl

theorem blt_floor_spec {t : Option blt_node} (h : WFo t) {key : List Nat}
    (hkey : ValidKey key) :
    blt_floor t key
      = (leavesO t).reverse.find? (fun it2 => !lexLtB key it2.key) := by
  match t with
  | none => rfl
  | some root =>
    show blt_ceilfloor (some root) key 1 = _
    rcases hcd : critDiff key (confident_get root key).key with _ | ⟨byte, x0⟩
    · have hqk : key = (confident_get root key).key :=
        (critDiff_eq_none_iff _ _).mp hcd
      have heq : blt_ceilfloor (some root) key 1
          = some (confident_get root key) := by
        simp only [blt_ceilfloor]
        rw [hcd]
      rw [heq]
      obtain ⟨L1, L2, hsplit⟩ := List.append_of_mem (confident_get_mem root key)
      obtain ⟨hbefore, hafter⟩ := pairwise_split h hsplit
      show _ = List.find? _ (leaves root).reverse
      have hrev : (leaves root).reverse
          = L2.reverse ++ [confident_get root key] ++ L1.reverse := by
        rw [hsplit]
        simp [List.reverse_append]
      rw [hrev, List.find?_append, List.find?_append]
      have hnone : List.find? (fun it2 => !lexLtB key it2.key) L2.reverse
          = none :=
        List.find?_eq_none.mpr (by
          intro x hx
          have hrel := hafter x (List.mem_reverse.mp hx)
          rw [← hqk] at hrel
          have hvx : ValidKey x.key :=
            wf_valid h x (by rw [hsplit]; simp [List.mem_reverse.mp hx])
          rw [lexLtB_true_of_extLt hkey hvx hrel]
          simp)
      have hpredc : (!lexLtB key (confident_get root key).key) = true := by
        rw [← hqk, lexLtB_self]
        rfl
      have hfind : List.find? (fun it2 => !lexLtB key it2.key)
          [confident_get root key] = some (confident_get root key) := by
        simp [List.find?, hpredc]
      rw [hnone, hfind, none_or]
      rfl
    · have hqv : ValidKey (confident_get root key).key :=
        wf_valid h _ (confident_get_mem root key)
      obtain ⟨hbelow, hxor, hx0, hx256⟩ := critDiff_spec hkey hqv hcd
      obtain ⟨hp8, hmask, hbitx, hhi⟩ := to_mask_spec x0 hx256 hx0
      have hagree : agreeB byte (critPos x0) key
          (confident_get root key).key := by
        refine ⟨hbelow, ?_⟩
        have hxs : (keyByte key byte ^^^
            keyByte (confident_get root key).key byte)
              >>> (critPos x0 + 1) = 0 := by
          rw [hxor]; exact hhi
        rw [xor_shiftRight] at hxs
        exact Nat.xor_eq_zero.mp hxs
      have hdiff : bitOf (keyByte key byte) (critPos x0) ≠
          bitOf (keyByte (confident_get root key).key byte) (critPos x0) := by
        apply (bitOf_xor _ _ _).mp
        rw [hxor]; exact hbitx
      have heq : blt_ceilfloor (some root) key 1 =
          blt_firstlast (ceilfloor_walk root key 1 byte (to_mask x0)
            (Blt.decide (to_mask x0) (keyByte key byte)) none) 1 := by
        simp only [blt_ceilfloor]
        rw [hcd]
      rw [hmask, decide_mask' (keyByte_lt hkey byte) hp8] at heq
      rw [heq, floor_walk_spec hkey hp8 root none h hagree hdiff]
      rw [blt_firstlast_none, or_none]
      rfl

end Blt

namespace Blt

theorem keyLe_refl (a : List Nat) : keyLe a a := Or.inl rfl

theorem not_keyLe_of_extLt {u v : List Nat} (hu : ValidKey u) (hv : ValidKey v)
    (h : extLt u v) : ¬ keyLe v u := by
  rintro (rfl | hlex)
  · exact extLt_irrefl h
  · exact extLt_asymm h ((extLt_iff_lex hv hu).mpr hlex)

theorem keyLe_of_extLt {u v : List Nat} (hu : ValidKey u) (hv : ValidKey v)
    (h : extLt u v) : keyLe u v :=
  Or.inr ((extLt_iff_lex hu hv).mp h)

theorem keyLe_of_not_lexLtB {u v : List Nat} (hu : ValidKey u)
    (hv : ValidKey v) (h : lexLtB v u = false) : keyLe u v := by
  rcases extLt_trichotomy hu hv with he | hlt | hgt
  · exact Or.inl he
  · exact keyLe_of_extLt hu hv hlt
  · rw [(extLt_iff_lexLtB hv hu).mp hgt] at h
    cases h

theorem ceil_some_char {t : Option blt_node} (h : WFo t) {key : List Nat}
    (hkey : ValidKey key) {it : BLT_IT} (hc : blt_ceil t key = some it) :
    it ∈ leavesO t ∧ keyLe key it.key ∧
      ∀ u ∈ keysO t, keyLe key u → keyLe it.key u := by
  rw [blt_ceil_spec h hkey] at hc
  match t with
  | none => simp [leavesO] at hc
  | some root =>
    have hmem : it ∈ leaves root := List.mem_of_find?_eq_some hc
    have hvit : ValidKey it.key := wf_valid h it hmem
    have hpred := List.find?_some hc
    simp only [Bool.not_eq_true'] at hpred
    refine ⟨hmem, keyLe_of_not_lexLtB hkey hvit hpred, ?_⟩
    intro u hu hku
    obtain ⟨itu, hitu, rfl⟩ := List.mem_map.mp hu
    have hvitu : ValidKey itu.key := wf_valid h itu hitu
    obtain ⟨A, B, hsplit2, hA⟩ := find?_split hc
    have hsplit2' : leaves root = A ++ it :: B := hsplit2
    obtain ⟨hbef, haft⟩ := pairwise_split h hsplit2'
    have hloc : itu ∈ A ∨ itu = it ∨ itu ∈ B := by
      have h2 := hitu
      rw [hsplit2'] at h2
      rcases List.mem_append.mp h2 with h2 | h2
      · exact Or.inl h2
      · rcases List.mem_cons.mp h2 with h2 | h2
        · exact Or.inr (Or.inl h2)
        · exact Or.inr (Or.inr h2)
    rcases hloc with hA2 | rfl | hB2
    · have hf := hA itu hA2
      simp only [Bool.not_eq_false'] at hf
      have hgt : extLt itu.key key := (extLt_iff_lexLtB hvitu hkey).mpr hf
      exact absurd hku (not_keyLe_of_extLt hvitu hkey hgt)
    · exact keyLe_refl _
    · exact keyLe_of_extLt hvit hvitu (haft itu hB2)

theorem ceil_none_char {t : Option blt_node} (h : WFo t) {key : List Nat}
    (hkey : ValidKey key) (hc : blt_ceil t key = none) :
    ∀ u ∈ keysO t, ¬ keyLe key u := by
  rw [blt_ceil_spec h hkey] at hc
  intro u hu hku
  match t with
  | none => simp [keysO] at hu
  | some root =>
    obtain ⟨itu, hitu, rfl⟩ := List.mem_map.mp hu
    have hvitu : ValidKey itu.key := wf_valid h itu hitu
    have hf := List.find?_eq_none.mp hc itu hitu
    simp only [Bool.not_eq_true, Bool.not_eq_false'] at hf
    have hgt : extLt itu.key key := (extLt_iff_lexLtB hvitu hkey).mpr hf
    exact absurd hku (not_keyLe_of_extLt hvitu hkey hgt)

theorem floor_some_char {t : Option blt_node} (h : WFo t) {key : List Nat}
    (hkey : ValidKey key) {it : BLT_IT} (hc : blt_floor t key = some it) :
    it ∈ leavesO t ∧ keyLe it.key key ∧
      ∀ u ∈ keysO t, keyLe u key → keyLe u it.key := by
  rw [blt_floor_spec h hkey] at hc
  match t with
  | none => simp [leavesO] at hc
  | some root =>
    have hmem : it ∈ leaves root :=
      List.mem_reverse.mp (List.mem_of_find?_eq_some hc)
    have hvit : ValidKey it.key := wf_valid h it hmem
    have hpred := List.find?_some hc
    simp only [Bool.not_eq_true'] at hpred
    refine ⟨hmem, keyLe_of_not_lexLtB hvit hkey hpred, ?_⟩
    intro u hu hku
    obtain ⟨itu, hitu, rfl⟩ := List.mem_map.mp hu
    have hvitu : ValidKey itu.key := wf_valid h itu hitu
    obtain ⟨A, B, hsplit2, hA⟩ := find?_split hc
    have hsplit2' : (leaves root).reverse = A ++ it :: B := hsplit2
    have hsplit3 : leaves root = B.reverse ++ it :: A.reverse := by
      have h3 : leaves root = ((leaves root).reverse).reverse :=
        (List.reverse_reverse _).symm
      rw [hsplit2'] at h3
      rw [h3]
      simp [List.reverse_append]
    obtain ⟨hbef, haft⟩ := pairwise_split h hsplit3
    have hloc : itu ∈ A ∨ itu = it ∨ itu ∈ B := by
      have h2 := List.mem_reverse.mpr hitu
      rw [hsplit2'] at h2
      rcases List.mem_append.mp h2 with h2 | h2
      · exact Or.inl h2
      · rcases List.mem_cons.mp h2 with h2 | h2
        · exact Or.inr (Or.inl h2)
        · exact Or.inr (Or.inr h2)
    rcases hloc with hA2 | rfl | hB2
    · have hf := hA itu hA2
      simp only [Bool.not_eq_false'] at hf
      have hgt : extLt key itu.key := (extLt_iff_lexLtB hkey hvitu).mpr hf
      exact absurd hku (not_keyLe_of_extLt hkey hvitu hgt)
    · exact keyLe_refl _
    · exact keyLe_of_extLt hvitu hvit
        (hbef itu (List.mem_reverse.mpr hB2))

theorem floor_none_char {t : Option blt_node} (h : WFo t) {key : List Nat}
    (hkey : ValidKey key) (hc : blt_floor t key = none) :
    ∀ u ∈ keysO t, ¬ keyLe u key := by
  rw [blt_floor_spec h hkey] at hc
  intro u hu hku
  match t with
  | none => simp [keysO] at hu
  | some root =>
    obtain ⟨itu, hitu, rfl⟩ := List.mem_map.mp hu
    have hvitu : ValidKey itu.key := wf_valid h itu hitu
    have hf := List.find?_eq_none.mp hc itu (List.mem_reverse.mpr hitu)
    simp only [Bool.not_eq_true, Bool.not_eq_false'] at hf
    have hgt : extLt key itu.key := (extLt_iff_lexLtB hkey hvitu).mpr hf
    exact absurd hku (not_keyLe_of_extLt hkey hvitu hgt)

end Blt

namespace Blt

theorem isPrefixOf_iff {P u : List Nat} (hP : ValidKey P) (hu : ValidKey u) :
    P.isPrefixOf u = true ↔
      ∀ i, i < P.length → keyByte u i = keyByte P i := by
  induction P generalizing u with
  | nil =>
    constructor
    · intro _ i hi
      simp at hi
    · intro _
      cases u <;> rfl
  | cons a as ih =>
    cases u with
    | nil =>
      rcases validKey_cons.mp hP with ⟨ha, _⟩
      constructor
      · intro h
        simp [List.isPrefixOf] at h
      · intro h
        have h0 := h 0 (by simp)
        rw [keyByte_nil, keyByte_cons_zero] at h0
        exact absurd h0.symm (by omega)
    | cons b bs =>
      rcases validKey_cons.mp hP with ⟨ha, has⟩
      rcases validKey_cons.mp hu with ⟨hb, hbs⟩
      simp only [List.isPrefixOf, Bool.and_eq_true, beq_iff_eq]
      rw [ih has hbs]
      constructor
      · rintro ⟨rfl, h2⟩ i hi
        cases i with
        | zero => rw [keyByte_cons_zero, keyByte_cons_zero]
        | succ j =>
          rw [keyByte_cons_succ, keyByte_cons_succ]
          exact h2 j (by
            simp only [List.length_cons] at hi
            omega)
      · intro h2
        constructor
        · have h0 := h2 0 (by simp)
          rw [keyByte_cons_zero, keyByte_cons_zero] at h0
          omega
        · intro j hj
          have hj2 := h2 (j + 1) (by
            simp only [List.length_cons]
            omega)
          rw [keyByte_cons_succ, keyByte_cons_succ] at hj2
          exact hj2

theorem allpref_descend_skip {key : List Nat} :
    ∀ t top, WF t →
    (∀ b m l r, t = blt_node.node b m l r → key.length ≤ b) →
    allpref_descend t key top = (firstlast t 0, top) := by
  intro t
  induction t with
  | leaf it =>
    intro top _ _
    rfl
  | node b m l r ihl ihr =>
    intro top hw hb
    obtain ⟨p, hp, hm, hl, hr, h0, h1, hag⟩ := wf_node_inv hw
    have hble := hb b m l r rfl
    rw [allpref_descend, if_pos (by omega : b ≥ key.length)]
    rw [ihl top hl ?_]
    · rw [show firstlast (blt_node.node b m l r) 0 = firstlast l 0 from by
        rw [firstlast]; simp]
    · intro b1 m1 l1 r1 heq
      subst heq
      obtain ⟨p1, hp1, hm1, _, _, _, _, _⟩ := wf_node_inv hl
      have hpi := wf_pathInc hw
      have hcode := hpi.1
      rw [hm, hm1] at hcode
      have hcl := (code_lt_iff hp hp1).mp hcode
      omega

theorem allpref_main {P : List Nat} (hP : ValidKey P) :
    ∀ t, WF t →
    (allpref_descend t P t).1 ∈ leaves (allpref_descend t P t).2 ∧
    WF (allpref_descend t P t).2 ∧
    ((leaves (allpref_descend t P t).2).filter
        (fun it2 => P.isPrefixOf it2.key)
      = (leaves t).filter (fun it2 => P.isPrefixOf it2.key)) ∧
    (∀ u v, u ∈ leaves (allpref_descend t P t).2 →
      v ∈ leaves (allpref_descend t P t).2 →
      ∀ i, i < P.length → keyByte u.key i = keyByte v.key i) := by
  intro t
  induction t with
  | leaf it =>
    intro hw
    refine ⟨by simp [allpref_descend, leaves], hw, rfl, ?_⟩
    intro u v hu hv i hi
    simp only [allpref_descend, leaves, List.mem_singleton] at hu hv
    rw [hu, hv]
  | node b m l r ihl ihr =>
    intro hw
    obtain ⟨p, hp, hm, hl, hr, h0, h1, hag⟩ := wf_node_inv hw
    by_cases hb : b ≥ P.length
    · have hskip : allpref_descend l P (blt_node.node b m l r)
          = (firstlast l 0, blt_node.node b m l r) := by
        apply allpref_descend_skip l (blt_node.node b m l r) hl
        intro b1 m1 l1 r1 heq
        subst heq
        obtain ⟨p1, hp1, hm1, _, _, _, _, _⟩ := wf_node_inv hl
        have hpi := wf_pathInc hw
        have hcode := hpi.1
        rw [hm, hm1] at hcode
        have hcl := (code_lt_iff hp hp1).mp hcode
        omega
      have hd : allpref_descend (blt_node.node b m l r) P
          (blt_node.node b m l r)
          = (firstlast l 0, blt_node.node b m l r) := by
        rw [allpref_descend, if_pos hb, hskip]
      rw [hd]
      refine ⟨?_, hw, rfl, ?_⟩
      · show firstlast l 0 ∈ leaves l ++ leaves r
        exact List.mem_append.mpr (Or.inl (firstlast_mem l 0))
      · intro u v hu hv i hi
        have hagr := hag u.key v.key
          (by
            rw [← keys_node]
            exact mem_keys_of_mem_leaves hu)
          (by
            rw [← keys_node]
            exact mem_keys_of_mem_leaves hv)
        exact hagr.1 i (by omega)
    · have hblt : b < P.length := by omega
      by_cases hbit : bitOf (keyByte P b) p = 1
      · have hd : allpref_descend (blt_node.node b m l r) P
            (blt_node.node b m l r) = allpref_descend r P r := by
          rw [allpref_descend, if_neg (by omega)]
          rw [if_pos (by rw [hm]; exact (decide_cond_eq2 hP hp).mpr hbit)]
        rw [hd]
        obtain ⟨ih1, ih2, ih3, ih4⟩ := ihr hr
        refine ⟨ih1, ih2, ?_, ih4⟩
        rw [ih3]
        show _ = List.filter _ (leaves l ++ leaves r)
        rw [List.filter_append]
        have hfl : (leaves l).filter (fun it2 => P.isPrefixOf it2.key)
            = [] := by
          rw [List.filter_eq_nil]
          intro x hx
          intro hpref
          have hvx : ValidKey x.key := wf_valid hl x hx
          have hbyte := (isPrefixOf_iff hP hvx).mp hpref b hblt
          have hbx := h0 x.key (mem_keys_of_mem_leaves hx)
          rw [hbyte] at hbx
          omega
        rw [hfl]
        rfl
      · have hbit0 : bitOf (keyByte P b) p = 0 := by
          have := bitOf_cases (keyByte P b) p
          omega
        have hd : allpref_descend (blt_node.node b m l r) P
            (blt_node.node b m l r) = allpref_descend l P l := by
          rw [allpref_descend, if_neg (by omega)]
          rw [if_neg (by rw [hm, decide_cond_eq2 hP hp, hbit0]; omega)]
        rw [hd]
        obtain ⟨ih1, ih2, ih3, ih4⟩ := ihl hl
        refine ⟨ih1, ih2, ?_, ih4⟩
        rw [ih3]
        show _ = List.filter _ (leaves l ++ leaves r)
        rw [List.filter_append]
        have hfr : (leaves r).filter (fun it2 => P.isPrefixOf it2.key)
            = [] := by
          rw [List.filter_eq_nil]
          intro x hx
          intro hpref
          have hvx : ValidKey x.key := wf_valid hr x hx
          have hbyte := (isPrefixOf_iff hP hvx).mp hpref b hblt
          have hbx := h1 x.key (mem_keys_of_mem_leaves hx)
          rw [hbyte] at hbx
          omega
        rw [hfr]
        simp

theorem allprefixedList_spec {t : Option blt_node} (h : WFo t) {P : List Nat}
    (hP : ValidKey P) :
    allprefixedList t P
      = (leavesO t).filter (fun it2 => P.isPrefixOf it2.key) := by
  match t with
  | none => rfl
  | some root =>
    obtain ⟨hmem, hwf2, hfilter, hhomog⟩ := allpref_main hP root h
    show (if P.isPrefixOf (allpref_descend root P root).1.key then
      leaves (allpref_descend root P root).2 else []) = _
    by_cases hpref : P.isPrefixOf (allpref_descend root P root).1.key
    · rw [if_pos hpref]
      show _ = List.filter (fun it2 => P.isPrefixOf it2.key) (leaves root)
      rw [← hfilter]
      symm
      rw [List.filter_eq_self]
      intro u hu
      have hvu : ValidKey u.key := wf_valid hwf2 u hu
      rw [isPrefixOf_iff hP hvu]
      intro i hi
      rw [hhomog u (allpref_descend root P root).1 hu hmem i hi]
      have hv1 : ValidKey (allpref_descend root P root).1.key :=
        wf_valid hwf2 _ hmem
      exact (isPrefixOf_iff hP hv1).mp hpref i hi
    · rw [if_neg hpref]
      show _ = List.filter (fun it2 => P.isPrefixOf it2.key) (leaves root)
      rw [← hfilter]
      symm
      rw [List.filter_eq_nil]
      intro x hx hpx
      apply hpref
      have hvx : ValidKey x.key := wf_valid hwf2 x hx
      have hv1 : ValidKey (allpref_descend root P root).1.key :=
        wf_valid hwf2 _ hmem
      rw [isPrefixOf_iff hP hv1]
      intro i hi
      rw [hhomog (allpref_descend root P root).1 x hmem hx i hi]
      exact (isPrefixOf_iff hP hvx).mp hpx i hi

theorem foldStatus_append (f : BLT_IT → Int) (l1 l2 : List BLT_IT) :
    foldStatus f (l1 ++ l2)
      = (if foldStatus f l1 = 1 then foldStatus f l2 else foldStatus f l1) := by
  induction l1 with
  | nil => simp [foldStatus]
  | cons a as ih =>
    show foldStatus f (a :: (as ++ l2)) = _
    rw [foldStatus, foldStatus]
    by_cases ha : f a = 1
    · simp only [ha, if_pos rfl]
      exact ih
    · simp only [if_neg ha]

theorem traverse_eq_foldStatus (f : BLT_IT → Int) (t : blt_node) :
    traverse f t = foldStatus f (leaves t) := by
  induction t with
  | leaf it =>
    show f it = (if f it = 1 then foldStatus f [] else f it)
    by_cases h2 : f it = 1
    · rw [if_pos h2, h2]
      rfl
    · rw [if_neg h2]
  | node b m l r ihl ihr =>
    show (if traverse f l = 1 then traverse f r else traverse f l) = _
    rw [show leaves (blt_node.node b m l r) = leaves l ++ leaves r from rfl]
    rw [foldStatus_append, ihl, ihr]

theorem blt_allprefixed_eq_fold (t : Option blt_node) (P : List Nat)
    (f : BLT_IT → Int) :
    blt_allprefixed t P f = foldStatus f (allprefixedList t P) := by
  match t with
  | none => rfl
  | some root =>
    show (if P.isPrefixOf (allpref_descend root P root).1.key then
        traverse f (allpref_descend root P root).2 else 1)
      = foldStatus f (if P.isPrefixOf (allpref_descend root P root).1.key then
        leaves (allpref_descend root P root).2 else [])
    by_cases hpref : P.isPrefixOf (allpref_descend root P root).1.key
    · rw [if_pos hpref, if_pos hpref, traverse_eq_foldStatus]
    · rw [if_neg hpref, if_neg hpref]
      rfl

end Blt

namespace Blt

theorem keysO_eq (t : Option blt_node) :
    keysO t = (leavesO t).map BLT_IT.key := by
  match t with
  | none => rfl
  | some root => rfl

theorem blt_put_mem {t : Option blt_node} {key : List Nat} {V : Nat}
    (h : WFo t) (hkey : ValidKey key) :
    (⟨key, V⟩ : BLT_IT) ∈ leavesO (blt_put t key V).1 := by
  by_cases hk : key ∈ keysO t
  · match t, hk with
    | some root, hk =>
      obtain ⟨it0, L1, L2, hm0, hk0, hs0, heq, hleaves, hval⟩ :=
        @put_with_present root key V (fun it2 => (⟨it2.key, V⟩, it2.data))
          h hkey hk
      show (⟨key, V⟩ : BLT_IT) ∈ leavesO
        (blt_put_with (some root) key V
          (fun it2 => (⟨it2.key, V⟩, it2.data))).1
      rw [heq]
      show (⟨key, V⟩ : BLT_IT) ∈ leaves (modify_at root key _)
      rw [hleaves]
      simp [hk0]
  · obtain ⟨root2, heq, hwf2, hperm, _⟩ :=
      @put_with_absent t key V (fun it2 => (⟨it2.key, V⟩, it2.data)) h hkey hk
    show (⟨key, V⟩ : BLT_IT) ∈ leavesO
      (blt_put_with t key V (fun it2 => (⟨it2.key, V⟩, it2.data))).1
    rw [heq]
    show (⟨key, V⟩ : BLT_IT) ∈ leaves root2
    exact hperm.mem_iff.mpr (by simp)

theorem count_one_of_nodup_mem {α : Type} [BEq α] [LawfulBEq α]
    {l : List α} {a : α} (hd : l.Nodup) (ha : a ∈ l) : l.count a = 1 := by
  induction l with
  | nil => cases ha
  | cons x xs ih =>
    obtain ⟨hnx, hnd2⟩ := List.nodup_cons.mp hd
    rcases List.mem_cons.mp ha with rfl | hmem
    · rw [List.count_cons, List.count_eq_zero.mpr hnx]
      simp
    · rw [List.count_cons, ih hnd2 hmem]
      have hne : (x == a) = false := by
        rw [beq_eq_false_iff_ne]
        rintro rfl
        exact hnx hmem
      rw [hne]
      simp

/-- C1: round-trip of `blt_put` / `blt_get` / `blt_delete` from `blt.c`: on
any well-formed tree and any valid (NUL-free) key K, after `blt_put t K V` a
`blt_get` of K returns the leaf holding payload V, and after `blt_delete t K`
a `blt_get` of K returns NULL (`none`). -/
theorem c1_put_get_delete_roundtrip (t : Option blt_node) (key : List Nat)
    (V : Nat) (h : WFo t) (hkey : ValidKey key) :
    blt_get (blt_put t key V).1 key = some ⟨key, V⟩ ∧
    blt_get (blt_delete t key).1 key = none := by
  constructor
  · exact blt_get_unique (blt_put_wf h hkey) (blt_put_mem h hkey) rfl
  · by_cases hk : key ∈ keysO t
    · obtain ⟨t2, it0, hd, hik, hperm, hwf2⟩ := blt_delete_mem h hk
      rw [show (blt_delete t key).1 = t2 from by rw [hd]]
      apply blt_get_not_mem hwf2 hkey
      intro hc
      have hkp : (keysO t).Perm (it0.key :: keysO t2) := by
        have h2 := hperm.map BLT_IT.key
        rw [keysO_eq t, keysO_eq t2]
        simpa using h2
      have hnd2 := hkp.nodup_iff.mp (keysO_nodup h)
      rw [hik] at hnd2
      exact (List.nodup_cons.mp hnd2).1 hc
    · rw [blt_delete_not_mem h hkey hk]
      exact blt_get_not_mem h hkey hk

/-- C1 witness at a concrete input. -/
theorem c1_witness :
    blt_get (blt_put (some (blt_node.leaf ⟨[97], 5⟩)) [98] 7).1 [98]
      = some ⟨[98], 7⟩ ∧
    blt_get (blt_delete (some (blt_node.leaf ⟨[97], 5⟩)) [98]).1 [98]
      = none :=
  c1_put_get_delete_roundtrip (some (blt_node.leaf ⟨[97], 5⟩)) [98] 7
    (WF.leaf ⟨[97], 5⟩ (by decide)) (by decide)

/-- C2: the `blt_first` / repeated `blt_next` walk of `blt.c` visits exactly
the stored leaves; the visited keys are strictly increasing in byte-wise
lexicographic order (`List.Lex (· < ·)`, under which a strict prefix sorts
before its extensions), each stored key is visited exactly once, and key A
is visited before key B iff A < B. -/
theorem c2_traversal_order (t : Option blt_node) (h : WFo t) :
    walkList t = leavesO t ∧
    List.Pairwise (List.Lex (· < ·)) ((walkList t).map BLT_IT.key) ∧
    (∀ A, A ∈ keysO t → ((walkList t).map BLT_IT.key).count A = 1) ∧
    (∀ A B, A ∈ keysO t → B ∈ keysO t →
      ((∃ i j : Nat, i < j ∧ ((walkList t).map BLT_IT.key)[i]? = some A ∧
        ((walkList t).map BLT_IT.key)[j]? = some B) ↔
        List.Lex (· < ·) A B)) := by
  have hw := walkList_eq h
  have hkeq : (walkList t).map BLT_IT.key = keysO t := by
    rw [hw, keysO_eq]
  refine ⟨hw, ?_, ?_, ?_⟩
  · rw [hkeq]
    exact keysO_pairwise_lex h
  · intro A hA
    rw [hkeq]
    exact count_one_of_nodup_mem (keysO_nodup h) hA
  · intro A B hA hB
    rw [hkeq]
    exact before_iff_lex h hA hB

/-- C2 witness at a concrete two-key tree. -/
theorem c2_witness :
    walkList (blt_put (some (blt_node.leaf ⟨[97], 5⟩)) [98] 7).1
      = leavesO (blt_put (some (blt_node.leaf ⟨[97], 5⟩)) [98] 7).1 ∧
    List.Pairwise (List.Lex (· < ·))
      ((walkList (blt_put (some (blt_node.leaf ⟨[97], 5⟩)) [98] 7).1).map
        BLT_IT.key) ∧
    (∀ A, A ∈ keysO (blt_put (some (blt_node.leaf ⟨[97], 5⟩)) [98] 7).1 →
      ((walkList (blt_put (some (blt_node.leaf ⟨[97], 5⟩)) [98] 7).1).map
        BLT_IT.key).count A = 1) ∧
    (∀ A B, A ∈ keysO (blt_put (some (blt_node.leaf ⟨[97], 5⟩)) [98] 7).1 →
      B ∈ keysO (blt_put (some (blt_node.leaf ⟨[97], 5⟩)) [98] 7).1 →
      ((∃ i j : Nat, i < j ∧
        ((walkList (blt_put (some (blt_node.leaf ⟨[97], 5⟩)) [98] 7).1).map
          BLT_IT.key)[i]? = some A ∧
        ((walkList (blt_put (some (blt_node.leaf ⟨[97], 5⟩)) [98] 7).1).map
          BLT_IT.key)[j]? = some B) ↔
        List.Lex (· < ·) A B)) :=
  c2_traversal_order (blt_put (some (blt_node.leaf ⟨[97], 5⟩)) [98] 7).1
    (blt_put_wf (WF.leaf ⟨[97], 5⟩ (by decide)) (by decide))

/-- C3: `blt_ceil` of `blt.c` returns the stored leaf with the smallest key
`≥ K` (or `none` when no stored key is `≥ K`), and `blt_floor` the stored
leaf with the largest key `≤ K` (or `none`), under byte-wise lexicographic
order. -/
theorem c3_ceil_floor (t : Option blt_node) (key : List Nat)
    (h : WFo t) (hkey : ValidKey key) :
    (∀ it, blt_ceil t key = some it → it ∈ leavesO t ∧ keyLe key it.key ∧
      ∀ u ∈ keysO t, keyLe key u → keyLe it.key u) ∧
    (blt_ceil t key = none → ∀ u ∈ keysO t, ¬ keyLe key u) ∧
    (∀ it, blt_floor t key = some it → it ∈ leavesO t ∧ keyLe it.key key ∧
      ∀ u ∈ keysO t, keyLe u key → keyLe u it.key) ∧
    (blt_floor t key = none → ∀ u ∈ keysO t, ¬ keyLe u key) :=
  ⟨fun it hc => ceil_some_char h hkey hc,
   ceil_none_char h hkey,
   fun it hc => floor_some_char h hkey hc,
   floor_none_char h hkey⟩

/-- C3 witness at a concrete input. -/
theorem c3_witness :
    (∀ it, blt_ceil (some (blt_node.leaf ⟨[98], 5⟩)) [97] = some it →
      it ∈ leavesO (some (blt_node.leaf ⟨[98], 5⟩)) ∧ keyLe [97] it.key ∧
      ∀ u ∈ keysO (some (blt_node.leaf ⟨[98], 5⟩)), keyLe [97] u →
        keyLe it.key u) ∧
    (blt_ceil (some (blt_node.leaf ⟨[98], 5⟩)) [97] = none →
      ∀ u ∈ keysO (some (blt_node.leaf ⟨[98], 5⟩)), ¬ keyLe [97] u) ∧
    (∀ it, blt_floor (some (blt_node.leaf ⟨[98], 5⟩)) [97] = some it →
      it ∈ leavesO (some (blt_node.leaf ⟨[98], 5⟩)) ∧ keyLe it.key [97] ∧
      ∀ u ∈ keysO (some (blt_node.leaf ⟨[98], 5⟩)), keyLe u [97] →
        keyLe u it.key) ∧
    (blt_floor (some (blt_node.leaf ⟨[98], 5⟩)) [97] = none →
      ∀ u ∈ keysO (some (blt_node.leaf ⟨[98], 5⟩)), ¬ keyLe u [97]) :=
  c3_ceil_floor (some (blt_node.leaf ⟨[98], 5⟩)) [97]
    (WF.leaf ⟨[98], 5⟩ (by decide)) (by decide)

/-- C4: `blt_allprefixed` of `blt.c` hands its callback exactly the stored
leaves whose keys start with the given first argument, in ascending
lexicographic order and each exactly once; if the leaf reached by the
descent does not start with it, no leaf is visited; and the callback is
folded over that leaf list with the `traverse` early-stop rule. -/
theorem c4_allprefixed (t : Option blt_node) (P : List Nat)
    (h : WFo t) (hP : ValidKey P) :
    allprefixedList t P
      = (leavesO t).filter (fun it2 => P.isPrefixOf it2.key) ∧
    List.Pairwise (List.Lex (· < ·))
      ((allprefixedList t P).map BLT_IT.key) ∧
    (∀ K, K ∈ keysO t → P.isPrefixOf K = true →
      ((allprefixedList t P).map BLT_IT.key).count K = 1) ∧
    (∀ K, K ∈ (allprefixedList t P).map BLT_IT.key →
      K ∈ keysO t ∧ P.isPrefixOf K = true) ∧
    (∀ f, blt_allprefixed t P f = foldStatus f (allprefixedList t P)) := by
  have hl := allprefixedList_spec h hP
  refine ⟨hl, ?_, ?_, ?_, fun f => blt_allprefixed_eq_fold t P f⟩
  · rw [hl]
    refine List.Pairwise.sublist ((List.filter_sublist _).map _) ?_
    rw [← keysO_eq t]
    exact keysO_pairwise_lex h
  · intro K hK hpre
    rw [hl]
    rw [keysO_eq t] at hK
    obtain ⟨it0, hit0, rfl⟩ := List.mem_map.mp hK
    have hmemf : it0 ∈ (leavesO t).filter (fun it2 => P.isPrefixOf it2.key) :=
      List.mem_filter.mpr ⟨hit0, hpre⟩
    have hnd : (((leavesO t).filter
        (fun it2 => P.isPrefixOf it2.key)).map BLT_IT.key).Nodup := by
      refine List.Nodup.sublist ((List.filter_sublist _).map _) ?_
      rw [← keysO_eq t]
      exact keysO_nodup h
    exact count_one_of_nodup_mem hnd (List.mem_map_of_mem _ hmemf)
  · intro K hKmem
    rw [hl] at hKmem
    obtain ⟨it0, hit0, rfl⟩ := List.mem_map.mp hKmem
    obtain ⟨hmem2, hpre⟩ := List.mem_filter.mp hit0
    exact ⟨by
      rw [keysO_eq t]
      exact List.mem_map_of_mem _ hmem2, hpre⟩

/-- C4 witness at a concrete input. -/
theorem c4_witness :
    allprefixedList (some (blt_node.leaf ⟨[97, 98], 5⟩)) [97]
      = (leavesO (some (blt_node.leaf ⟨[97, 98], 5⟩))).filter
          (fun it2 => List.isPrefixOf [97] it2.key) ∧
    List.Pairwise (List.Lex (· < ·))
      ((allprefixedList (some (blt_node.leaf ⟨[97, 98], 5⟩)) [97]).map
        BLT_IT.key) ∧
    (∀ K, K ∈ keysO (some (blt_node.leaf ⟨[97, 98], 5⟩)) →
      List.isPrefixOf [97] K = true →
      ((allprefixedList (some (blt_node.leaf ⟨[97, 98], 5⟩)) [97]).map
        BLT_IT.key).count K = 1) ∧
    (∀ K, K ∈ (allprefixedList (some (blt_node.leaf ⟨[97, 98], 5⟩)) [97]).map
        BLT_IT.key →
      K ∈ keysO (some (blt_node.leaf ⟨[97, 98], 5⟩)) ∧
        List.isPrefixOf [97] K = true) ∧
    (∀ f, blt_allprefixed (some (blt_node.leaf ⟨[97, 98], 5⟩)) [97] f
      = foldStatus f
          (allprefixedList (some (blt_node.leaf ⟨[97, 98], 5⟩)) [97])) :=
  c4_allprefixed (some (blt_node.leaf ⟨[97, 98], 5⟩)) [97]
    (WF.leaf ⟨[97, 98], 5⟩ (by decide)) (by decide)

/-- C5: on every tree reachable from the empty tree by `blt_put` and
`blt_delete`, the `(byte << 8) + mask` crit codes strictly increase along
every root-to-leaf path, and both operations preserve this invariant. -/
theorem c5_path_codes_increase :
    (∀ t, Reachable t → pathIncO t) ∧
    (∀ t key d, Reachable t → ValidKey key →
      pathIncO (blt_put t key d).1 ∧ pathIncO (blt_delete t key).1) := by
  have hmain : ∀ t, Reachable t → pathIncO t := by
    intro t ht
    have hw := reachable_wf ht
    match t with
    | none => trivial
    | some root => exact wf_pathInc hw
  exact ⟨hmain, fun t key d ht hv =>
    ⟨hmain _ (Reachable.put t key d ht hv),
     hmain _ (Reachable.del t key ht hv)⟩⟩

/-- C5 witness: the invariant holds on a concrete reachable tree. -/
theorem c5_witness :
    pathIncO (blt_put (blt_put none [97] 5).1 [98] 7).1 ∧
    pathIncO (blt_delete (blt_put none [97] 5).1 [97]).1 :=
  c5_path_codes_increase.2 (blt_put none [97] 5).1 [98] 7
    (Reachable.put none [97] 5 Reachable.empty (by decide)) (by decide)
    |>.imp id (fun _ =>
      (c5_path_codes_increase.2 (blt_put none [97] 5).1 [97] 7
        (Reachable.put none [97] 5 Reachable.empty (by decide))
        (by decide)).2)

/-- C6 counterexample: inserting a fresh key into the empty tree is an
insertion, yet `blt_put_if_absent` returns 0 (false), contradicting the
claim that a true result marks an insertion. -/
theorem c6_counterexample :
    (blt_put_if_absent none [97] 5).2 = false ∧
    [97] ∈ keysO (blt_put_if_absent none [97] 5).1 := by
  decide

/-- C6 (amended): `blt_put_if_absent` returns nonzero iff the key was
already present — i.e. iff no insertion occurred; it returns 0 exactly when
a new entry is created, and in that case the key is stored afterwards. -/
theorem c6_put_if_absent_amended (t : Option blt_node) (key : List Nat)
    (d : Nat) (h : WFo t) (hkey : ValidKey key) :
    ((blt_put_if_absent t key d).2 = true ↔ key ∈ keysO t) ∧
    (key ∉ keysO t → key ∈ keysO (blt_put_if_absent t key d).1) := by
  by_cases hk : key ∈ keysO t
  · match t, hk with
    | some root, hk =>
      obtain ⟨it0, L1, L2, hm0, hk0, hs0, heq, hleaves, hval⟩ :=
        @put_with_present root key d (fun it2 => (it2, 1)) h hkey hk
      constructor
      · constructor
        · intro _
          exact hk
        · intro _
          show ((blt_put_with (some root) key d
            (fun it2 => (it2, 1))).2 != 0) = true
          rw [hval]
          rfl
      · intro hc
        exact absurd hk hc
  · obtain ⟨root2, heq, hwf2, hperm, hzero⟩ :=
      @put_with_absent t key d (fun it2 => (it2, 1)) h hkey hk
    constructor
    · constructor
      · intro hc
        rw [show (blt_put_if_absent t key d).2
            = ((blt_put_with t key d (fun it2 => (it2, 1))).2 != 0) from rfl,
          hzero] at hc
        simp at hc
      · intro hc
        exact absurd hc hk
    · intro _
      show key ∈ keysO (blt_put_with t key d (fun it2 => (it2, 1))).1
      rw [heq]
      show key ∈ keys root2
      have h2 := hperm.map BLT_IT.key
      exact h2.mem_iff.mpr (by simp)

/-- C6 witness for the amended statement at concrete inputs. -/
theorem c6_witness :
    ((blt_put_if_absent (some (blt_node.leaf ⟨[97], 5⟩)) [97] 9).2 = true ↔
      [97] ∈ keysO (some (blt_node.leaf ⟨[97], 5⟩))) ∧
    ([97] ∉ keysO (some (blt_node.leaf ⟨[97], 5⟩)) →
      [97] ∈ keysO
        (blt_put_if_absent (some (blt_node.leaf ⟨[97], 5⟩)) [97] 9).1) :=
  c6_put_if_absent_amended (some (blt_node.leaf ⟨[97], 5⟩)) [97] 9
    (WF.leaf ⟨[97], 5⟩ (by decide)) (by decide)

/-- C7: `blt_size` (modelled from the spec as the count of stored entries)
equals the number of leaves visited by the full `blt_first`/`blt_next` walk
and by `blt_allprefixed` with the empty first argument. -/
theorem c7_size (t : Option blt_node) (h : WFo t) :
    blt_size t = (walkList t).length ∧
    blt_size t = (allprefixedList t []).length := by
  constructor
  · rw [walkList_eq h]
    rfl
  · rw [allprefixedList_spec h validKey_nil]
    rw [List.filter_eq_self.mpr ?_]
    · rfl
    · intro a _
      cases hk : a.key <;> rfl

/-- C7 witness at a concrete input. -/
theorem c7_witness :
    blt_size (some (blt_node.leaf ⟨[97], 5⟩))
      = (walkList (some (blt_node.leaf ⟨[97], 5⟩))).length ∧
    blt_size (some (blt_node.leaf ⟨[97], 5⟩))
      = (allprefixedList (some (blt_node.leaf ⟨[97], 5⟩)) []).length :=
  c7_size (some (blt_node.leaf ⟨[97], 5⟩)) (WF.leaf ⟨[97], 5⟩ (by decide))

/-- C8: `blt_delete` of `blt.c` returns 1 iff the key was stored, and
whenever it returns 0 (including the `p->byte > keylen` short circuit) the
tree is returned unchanged, entries and payloads included. -/
theorem c8_delete (t : Option blt_node) (key : List Nat) (h : WFo t)
    (hkey : ValidKey key) :
    ((blt_delete t key).2 = true ↔ key ∈ keysO t) ∧
    ((blt_delete t key).2 = false → (blt_delete t key).1 = t) := by
  by_cases hk : key ∈ keysO t
  · obtain ⟨t2, it0, hd, _, _, _⟩ := blt_delete_mem h hk
    rw [hd]
    refine ⟨⟨fun _ => hk, fun _ => rfl⟩, fun hc => ?_⟩
    simp at hc
  · rw [blt_delete_not_mem h hkey hk]
    exact ⟨⟨fun hc => by simp at hc, fun hc => absurd hc hk⟩, fun _ => rfl⟩

/-- C8 witness at concrete inputs. -/
theorem c8_witness :
    ((blt_delete (some (blt_node.leaf ⟨[97], 5⟩)) [98]).2 = true ↔
      [98] ∈ keysO (some (blt_node.leaf ⟨[97], 5⟩))) ∧
    ((blt_delete (some (blt_node.leaf ⟨[97], 5⟩)) [98]).2 = false →
      (blt_delete (some (blt_node.leaf ⟨[97], 5⟩)) [98]).1
        = some (blt_node.leaf ⟨[97], 5⟩)) :=
  c8_delete (some (blt_node.leaf ⟨[97], 5⟩)) [98]
    (WF.leaf ⟨[97], 5⟩ (by decide)) (by decide)

/-- C9: `decide` from `blt.c` is commutative, so every call site — whether it
passes (key byte, mask) or (mask, key byte) — computes the same direction,
namely the key byte's bit at the crit position `p` encoded by a mask of the
form `255 - 2 ^ p`. -/
theorem c9_decide :
    (∀ a b : Nat, Blt.decide a b = Blt.decide b a) ∧
    (∀ c p : Nat, c < 256 → p < 8 →
      Blt.decide c (255 - 2 ^ p) = bitOf c p ∧
      Blt.decide (255 - 2 ^ p) c = bitOf c p) :=
  ⟨decide_comm, fun c p hc hp => ⟨decide_mask hc hp, decide_mask' hc hp⟩⟩

/-- C9 witness at concrete inputs. -/
theorem c9_witness :
    Blt.decide 3 5 = Blt.decide 5 3 ∧
    (Blt.decide 7 (255 - 2 ^ 2) = bitOf 7 2 ∧
      Blt.decide (255 - 2 ^ 2) 7 = bitOf 7 2) :=
  ⟨c9_decide.1 3 5, c9_decide.2 7 2 (by decide) (by decide)⟩

/-- C10: `blt_put` of `blt.c` returns 0 (NULL) both when the key was absent
and when the key was stored with payload NULL, so the return value alone
cannot distinguish a fresh insertion from an overwrite of a NULL payload. -/
theorem c10_put_return_nul (t : Option blt_node) (key : List Nat) (V : Nat)
    (h : WFo t) (hkey : ValidKey key) :
    (key ∉ keysO t → (blt_put t key V).2 = 0) ∧
    ((⟨key, 0⟩ : BLT_IT) ∈ leavesO t → (blt_put t key V).2 = 0) := by
  constructor
  · intro hk
    obtain ⟨root2, heq, hwf2, hperm, hzero⟩ :=
      @put_with_absent t key V (fun it2 => (⟨it2.key, V⟩, it2.data)) h hkey hk
    exact hzero
  · intro hmem
    have hk : key ∈ keysO t := by
      rw [keysO_eq t]
      exact List.mem_map_of_mem BLT_IT.key hmem
    match t, hk, hmem with
    | some root, hk, hmem =>
      obtain ⟨it0, L1, L2, hm0, hk0, hs0, heq, hleaves, hval⟩ :=
        @put_with_present root key V (fun it2 => (⟨it2.key, V⟩, it2.data))
          h hkey hk
      have hit0 : it0 = ⟨key, 0⟩ := wf_leaf_inj h hm0 hmem (by rw [hk0])
      have hval2 : (blt_put (some root) key V).2
          = ((fun it2 => ((⟨it2.key, V⟩ : BLT_IT), it2.data)) it0).2 := hval
      rw [hval2, hit0]

/-- C10 witness at concrete inputs: fresh insertion and NULL-payload
overwrite both return 0. -/
theorem c10_witness :
    ([98] ∉ keysO (some (blt_node.leaf ⟨[97], 0⟩)) →
      (blt_put (some (blt_node.leaf ⟨[97], 0⟩)) [98] 7).2 = 0) ∧
    ((⟨[98], 0⟩ : BLT_IT) ∈ leavesO (some (blt_node.leaf ⟨[97], 0⟩)) →
      (blt_put (some (blt_node.leaf ⟨[97], 0⟩)) [98] 7).2 = 0) :=
  c10_put_return_nul (some (blt_node.leaf ⟨[97], 0⟩)) [98] 7
    (WF.leaf ⟨[97], 0⟩ (by decide)) (by decide)

end Blt
